import Mathlib

/-!
Shallow embedding of the reactive dependency-graph engine in src/lib/system.ts
(the computeds repository).  Objects implementing the Dependency, Subscriber and
IEffect interfaces are merged into one record type Node, addressed by a natural
number; Link records are likewise addressed by naturals.  The mutable module
state of the TypeScript namespaces System and Link (the active subscriber, the
batch depth, the global version counter, the effect queue, and the link pool)
together with the two heaps forms the record System.  Unbounded pointer walks
(propagate, resolveMaybeDirty, endBatch, releaseDeps) are interpreted with
explicit fuel and return none when fuel runs out or when the TypeScript code
would dereference undefined.  External callbacks (update, notify) are passed in
as state transformers and their invocations are logged.
-/

set_option autoImplicit false

namespace Computeds

/- Dirty level codes from the const enum DirtyLevels. -/
namespace DirtyLevels

abbrev NotDirty : Int := 0

abbrev MaybeDirty : Int := 1

abbrev Dirty : Int := 2

end DirtyLevels

/-- One reactive object.  The TypeScript interfaces Dependency, Subscriber and
IEffect can be implemented by the same object, so a Node carries all their
fields plus presence flags: isDep means the object has the Dependency shape
(the test written as subs-in-sub in the source), isSub means it has the
Subscriber shape (deps-in-dep), hasNotify the IEffect shape (notify-in-sub),
hasUpdate an update capability and hasNotifyLostSubs a subscriber-lost
callback. -/
structure Node where
  isDep : Bool := false
  subs : Option Nat := none
  subsTail : Option Nat := none
  depVersion : Int := 0
  subVersion : Int := 0
  hasUpdate : Bool := false
  hasNotifyLostSubs : Bool := false
  isSub : Bool := false
  versionOrDirtyLevel : Int := 0
  deps : Option Nat := none
  depsTail : Option Nat := none
  isScope : Bool := false
  hasNotify : Bool := false
  nextNotify : Option Nat := none
deriving Repr, DecidableEq, Inhabited

/-- One pooled edge record, the Link interface of the source.  The dep and sub
references are Options because release writes undefined into them. -/
structure Link where
  dep : Option Nat := none
  depVersion : Int := -1
  sub : Option Nat := none
  prevSubOrUpdate : Option Nat := none
  nextSub : Option Nat := none
  nextDep : Option Nat := none
  prevPropagateOrNextReleased : Option Nat := none
deriving Repr, DecidableEq, Inhabited

/-- The complete mutable state: the two heaps, the allocation counter for fresh
Link ids, the free-list head of namespace Link, and the module-level variables
of namespace System. -/
structure System where
  nodes : Nat → Node
  links : Nat → Link
  linkCount : Nat
  pool : Option Nat
  activeSub : Option Nat
  activeSubsDepth : Int
  batchDepth : Int
  subVersion : Int
  queuedEffects : Option Nat
  queuedEffectsTail : Option Nat

namespace System

/-- Point update of the node heap. -/
def setNode (s : System) (i : Nat) (nd : Node) : System :=
  { s with nodes := fun j => if j = i then nd else s.nodes j }

/-- Point update of the link heap. -/
def setLink (s : System) (i : Nat) (lk : Link) : System :=
  { s with links := fun j => if j = i then lk else s.links j }

/-- The state of the freshly loaded module: empty heaps, no active subscriber,
batch depth zero, and the version counter initialised to DirtyLevels.Dirty + 1
as on line 49 of the source. -/
def initial : System where
  nodes := fun _ => {}
  links := fun _ => {}
  linkCount := 0
  pool := none
  activeSub := none
  activeSubsDepth := 0
  batchDepth := 0
  subVersion := DirtyLevels.Dirty + 1
  queuedEffects := none
  queuedEffectsTail := none

/-- System.startBatch. -/
def startBatch (s : System) : System :=
  { s with batchDepth := s.batchDepth + 1 }

/-- The drain loop of System.endBatch.  ntf is the external notify callback of
the dequeued effect; the returned list logs the order of notify invocations. -/
def endBatchLoop (ntf : Nat → System → System) :
    Nat → System → List Nat → Option (System × List Nat)
  | 0, _, _ => none
  | fuel + 1, s, log =>
    if s.batchDepth = 0 then
      match s.queuedEffects with
      | none => some (s, log)
      | some e =>
        let queuedNext := (s.nodes e).nextNotify
        let s1 :=
          match queuedNext with
          | some q =>
            { s.setNode e { s.nodes e with nextNotify := none } with
                queuedEffects := some q }
          | none => { s with queuedEffects := none, queuedEffectsTail := none }
        endBatchLoop ntf fuel (ntf e s1) (log ++ [e])
    else some (s, log)

/-- System.endBatch: decrement the batch depth, then drain queued effects while
the depth is zero, notifying each dequeued effect. -/
def endBatch (ntf : Nat → System → System) (fuel : Nat) (s : System) :
    Option (System × List Nat) :=
  endBatchLoop ntf fuel { s with batchDepth := s.batchDepth - 1 } []

end System

namespace Link

/-- Link.get: pop a pooled Link if one exists, resetting its scratch pointer
and installing the new endpoints, else allocate a fresh record. -/
def get (s : System) (dep sub : Nat) : System × Nat :=
  match s.pool with
  | some l =>
    let s1 := { s with pool := (s.links l).prevPropagateOrNextReleased }
    (s1.setLink l
      { s1.links l with prevPropagateOrNextReleased := none,
                        dep := some dep, sub := some sub }, l)
  | none =>
    let l := s.linkCount
    ({ s with linkCount := l + 1 }.setLink l
      { dep := some dep, depVersion := -1, sub := some sub,
        prevSubOrUpdate := none, nextSub := none, nextDep := none,
        prevPropagateOrNextReleased := none }, l)

/-- Link.unlinkSub: splice the link out of its Dependency's subscriber list,
clear its subscriber-side fields, and detect whether the subscriber-lost
callback fires (the returned Bool is true exactly when the source would call
dep.notifyLostSubs()).  Returns none when link.dep is undefined, where the
TypeScript would throw. -/
def unlinkSub (s : System) (l : Nat) : Option (System × Bool) :=
  match (s.links l).dep with
  | none => none
  | some d =>
    let nextSub := (s.links l).nextSub
    let prevSub := (s.links l).prevSubOrUpdate
    let s1 :=
      match nextSub with
      | some ns => s.setLink ns { s.links ns with prevSubOrUpdate := prevSub }
      | none => s
    let s2 :=
      match prevSub with
      | some p => s1.setLink p { s1.links p with nextSub := nextSub }
      | none => s1
    let s3 :=
      if nextSub = none then
        s2.setNode d { s2.nodes d with subsTail := prevSub }
      else s2
    let s4 :=
      if prevSub = none then
        s3.setNode d { s3.nodes d with subs := nextSub }
      else s3
    let s5 := s4.setLink l
      { s4.links l with sub := none, prevSubOrUpdate := none, nextSub := none }
    some (s5, (s5.nodes d).subs.isNone && (s5.nodes d).hasNotifyLostSubs)

/-- Link.release: unlink from the subscriber list, clear the dep reference and
push the record onto the pool free list.  The Bool reports whether the
subscriber-lost callback fired inside unlinkSub. -/
def release (s : System) (l : Nat) : Option (System × Bool) :=
  match unlinkSub s l with
  | none => none
  | some (s1, fired) =>
    let s2 := s1.setLink l
      { s1.links l with dep := none, prevPropagateOrNextReleased := s1.pool }
    some ({ s2 with pool := some l }, fired)

/-- The while loop of Link.releaseDeps, carrying toBreak and the already-read
nextDep pointer. -/
def releaseDepsLoop : Nat → System → Nat → Option Nat → Option System
  | _, s, _, none => some s
  | 0, _, _, some _ => none
  | fuel + 1, s, toBreak, some nd =>
    let s1 := s.setLink toBreak { s.links toBreak with nextDep := none }
    let nextNext := (s1.links nd).nextDep
    match release s1 nd with
    | none => none
    | some (s2, _) => releaseDepsLoop fuel s2 nd nextNext

/-- Link.releaseDeps: release every link strictly after toBreak in the
dependency chain. -/
def releaseDeps (fuel : Nat) (s : System) (toBreak : Nat) : Option System :=
  releaseDepsLoop fuel s toBreak ((s.links toBreak).nextDep)

end Link

namespace Dependency

/-- The inlined tail-append to the System effect queue used by
Dependency.propagate (lines 226 to 236 and 259 to 269 of the source). -/
def enqueueEffect (s : System) (e : Nat) : System :=
  match s.queuedEffectsTail with
  | some t =>
    { s.setNode t { s.nodes t with nextNotify := some e } with
        queuedEffectsTail := some e }
  | none => { s with queuedEffectsTail := some e, queuedEffects := some e }

/-- Insertion of the fresh Link at the cursor position of the Subscriber's
dependency list (lines 177 to 181 of the source): either it becomes both head
and tail, or the previous tail's nextDep and the tail pointer are redirected to
it. -/
def linkIntoDeps (s : System) (sub nl : Nat) (depsTail : Option Nat) : System :=
  match depsTail with
  | none =>
    s.setNode sub { s.nodes sub with depsTail := some nl, deps := some nl }
  | some dt =>
    (s.setLink dt { s.links dt with nextDep := some nl }).setNode sub
      { (s.setLink dt { s.links dt with nextDep := some nl }).nodes sub with
          depsTail := some nl }

/-- Insertion of the fresh Link at the tail of the Dependency's subscriber
list (lines 182 to 190 of the source).  Returns none where the source would
dereference an undefined subsTail. -/
def linkIntoSubs (s : System) (dep nl : Nat) : Option System :=
  match (s.nodes dep).subs with
  | none =>
    some (s.setNode dep
      { s.nodes dep with subs := some nl, subsTail := some nl })
  | some _ =>
    match (s.nodes dep).subsTail with
    | none => none
    | some oldTail =>
      let s5 := s.setLink nl { s.links nl with prevSubOrUpdate := some oldTail }
      let s6 := s5.setLink oldTail { s5.links oldTail with nextSub := some nl }
      some (s6.setNode dep { s6.nodes dep with subsTail := some nl })

/-- Lines 173 to 190 of the source, after the fresh Link nl has been acquired:
record the Dependency's current depVersion on it, keep any stale cursor slot
chained behind it via nextDep, then insert it into both lists. -/
def linkInstall (s : System) (dep sub nl : Nat) (depsTail old : Option Nat) :
    Option System :=
  let s2 := s.setLink nl { s.links nl with depVersion := (s.nodes dep).depVersion }
  let s3 :=
    match old with
    | some o => s2.setLink nl { s2.links nl with nextDep := some o }
    | none => s2
  linkIntoSubs (linkIntoDeps s3 sub nl depsTail) dep nl

/-- The branch of Dependency.link that installs a fresh Link (lines 171 to 190
of the source): acquire a Link, then install it. -/
def linkNewBranch (s : System) (dep sub : Nat) (depsTail old : Option Nat) :
    Option System :=
  let got := Link.get s dep sub
  linkInstall got.1 dep sub got.2 depsTail old

/-- The slot at the Subscriber's cursor position (the old of lines 166 to 169
of the source): the slot after the cursor depsTail, or the head of the
dependency list when the cursor is before the first slot. -/
def cursorSlot (s : System) (sub : Nat) : Option Nat :=
  match (s.nodes sub).depsTail with
  | some dt => (s.links dt).nextDep
  | none => (s.nodes sub).deps

/-- Dependency.link (lines 152 to 195 of the source): record the read of dep by
the active subscriber.  No-op when no tracking session is active, when the
active subscriber is scope-marked and allowScope is false, or when dep was
already linked in this session (subVersion stamp match).  Otherwise reconcile
against the cursor slot: reuse it in place when it already points at dep
(refreshing its recorded depVersion), else install a fresh Link.  Returns none
exactly where the TypeScript would throw on an undefined dereference. -/
def link (s : System) (dep : Nat) (allowScope : Bool) : Option System :=
  if s.activeSubsDepth = 0 then some s
  else
    match s.activeSub with
    | none => none
    | some sub =>
      if !allowScope && (s.nodes sub).isScope then some s
      else if (s.nodes dep).subVersion = (s.nodes sub).versionOrDirtyLevel then
        some s
      else
        let s1 := s.setNode dep
          { s.nodes dep with subVersion := (s.nodes sub).versionOrDirtyLevel }
        let depsTail := (s1.nodes sub).depsTail
        let old : Option Nat :=
          match depsTail with
          | some dt => (s1.links dt).nextDep
          | none => (s1.nodes sub).deps
        match old with
        | some o =>
          if (s1.links o).dep = some dep then
            let s2 := s1.setLink o
              { s1.links o with depVersion := (s1.nodes dep).depVersion }
            some (s2.setNode sub { s2.nodes sub with depsTail := some o })
          else linkNewBranch s1 dep sub depsTail (some o)
        | none => linkNewBranch s1 dep sub depsTail none

/-- The non-recursive walk of Dependency.propagate (lines 204 to 276), one
transition per unit of fuel: either visit one link of the current subscriber
list (raising the visited subscriber's dirty level, descending into a NotDirty
derived subscriber by stashing the return link, or enqueueing a NotDirty
effect), or pop the manual stack when the current list is exhausted.  vlog
records each visit as (subscriber, depth, prior versionOrDirtyLevel); elog
records each effect enqueued, in order. -/
def propagateLoop :
    Nat → System → Nat → Option Nat → Int → Int →
    List (Nat × Int × Int) → List Nat →
    Option (System × List (Nat × Int × Int) × List Nat)
  | 0, _, _, _, _, _, _, _ => none
  | fuel + 1, s, dep, link, dirtyLevel, depth, vlog, elog =>
    match link with
    | some l =>
      match (s.links l).sub with
      | none => none
      | some subId =>
        let subDirtyLevel := (s.nodes subId).versionOrDirtyLevel
        let s1 :=
          if subDirtyLevel < dirtyLevel then
            s.setNode subId
              { s.nodes subId with versionOrDirtyLevel := dirtyLevel }
          else s
        let vlog1 := vlog ++ [(subId, depth, subDirtyLevel)]
        if subDirtyLevel = DirtyLevels.NotDirty then
          if (s1.nodes subId).isDep then
            match (s1.nodes subId).deps with
            | none => none
            | some dd =>
              let s2 := s1.setLink dd
                { s1.links dd with prevPropagateOrNextReleased := some l }
              propagateLoop fuel s2 subId ((s2.nodes subId).subs)
                DirtyLevels.MaybeDirty (depth + 1) vlog1 elog
          else if (s1.nodes subId).hasNotify then
            propagateLoop fuel (enqueueEffect s1 subId) dep
              ((s1.links l).nextSub) dirtyLevel depth vlog1 (elog ++ [subId])
          else
            propagateLoop fuel s1 dep ((s1.links l).nextSub) dirtyLevel depth
              vlog1 elog
        else
          propagateLoop fuel s1 dep ((s1.links l).nextSub) dirtyLevel depth
            vlog1 elog
    | none =>
      match (s.nodes dep).deps with
      | none => some (s, vlog, elog)
      | some dd =>
        match (s.links dd).prevPropagateOrNextReleased with
        | none => some (s, vlog, elog)
        | some pl =>
          let s1 := s.setLink dd
            { s.links dd with prevPropagateOrNextReleased := none }
          match (s1.links pl).dep, (s1.links pl).sub with
          | some pdep, some prevSub =>
            let depth1 := depth - 1
            let dirtyLevel1 :=
              if depth1 = 0 then DirtyLevels.Dirty else dirtyLevel
            let s2 :=
              if (s1.nodes prevSub).hasNotify then enqueueEffect s1 prevSub
              else s1
            let elog1 :=
              if (s1.nodes prevSub).hasNotify then elog ++ [prevSub] else elog
            propagateLoop fuel s2 pdep ((s1.links pl).nextSub) dirtyLevel1
              depth1 vlog elog1
          | _, _ => none

/-- Dependency.propagate (lines 197 to 277): bump the changed Dependency's
depVersion, then run the stack-encoded walk over its subscriber graph starting
at its subscriber list head with dirty level Dirty at depth 0. -/
def propagate (fuel : Nat) (s : System) (d : Nat) :
    Option (System × List (Nat × Int × Int) × List Nat) :=
  let s1 := s.setNode d { s.nodes d with depVersion := (s.nodes d).depVersion + 1 }
  propagateLoop fuel s1 d ((s1.nodes d).subs) DirtyLevels.Dirty 0 [] []

end Dependency

namespace Subscriber

/-- Control position inside Subscriber.resolveMaybeDirty: scanning the current
dependency list at a given link, or at the section after the inner while loop
(reached by exhausting the list or by the break on line 382). -/
inductive RPhase where
  | scan (link : Option Nat)
  | post
deriving Repr, DecidableEq

/-- The trailing loop of resolveMaybeDirty (lines 424 to 434): notify every
inner effect dependency whose dirty level is not NotDirty. -/
def notifyLoop (ntf : Nat → System → System) :
    Nat → System → Option Nat → Option System
  | _, s, none => some s
  | 0, _, some _ => none
  | fuel + 1, s, some l =>
    match (s.links l).dep with
    | none => none
    | some d =>
      let s1 :=
        if (s.nodes d).hasNotify ∧
            (s.nodes d).versionOrDirtyLevel ≠ DirtyLevels.NotDirty then
          ntf d s
        else s
      notifyLoop ntf fuel s1 ((s1.links l).nextDep)

/-- The code after the labelled loop of resolveMaybeDirty: when dirty inner
effects were seen and the subscriber settled at NotDirty, walk its dependency
list notifying them. -/
def resolveFinish (ntf : Nat → System → System) (fuel : Nat) (s : System)
    (sub : Nat) (ulog : List Nat) (hid : Bool) : Option (System × List Nat) :=
  if hid ∧ (s.nodes sub).versionOrDirtyLevel = DirtyLevels.NotDirty then
    match notifyLoop ntf fuel s ((s.nodes sub).deps) with
    | none => none
    | some s1 => some (s1, ulog)
  else some (s, ulog)

/-- The labelled loop of Subscriber.resolveMaybeDirty (lines 363 to 422), one
transition per unit of fuel.  In the scan phase each derived dependency that is
MaybeDirty is descended into by stashing the return link on its subscriber-list
head, each Dirty one has its update capability invoked (logged in ulog), and a
dependency that is an inner effect with no update capability raises the
hasDirtyInnerEffects flag hid when its level is MaybeDirty or Dirty.  The post
phase downgrades a MaybeDirty subscriber to NotDirty, then pops the stashed
return link, invoking the popped subscriber's update when it ended Dirty. -/
def resolveLoop (upd ntf : Nat → System → System) :
    Nat → System → Nat → RPhase → List Nat → Bool →
    Option (System × List Nat)
  | 0, _, _, _, _, _ => none
  | fuel + 1, s, sub, RPhase.scan link, ulog, hid =>
    match link with
    | some l =>
      match (s.links l).dep with
      | none => none
      | some d =>
        if (s.nodes d).isSub then
          if (s.nodes d).hasUpdate then
            if (s.nodes d).versionOrDirtyLevel = DirtyLevels.MaybeDirty then
              match (s.nodes d).subs with
              | none => none
              | some sh =>
                let s1 := s.setLink sh
                  { s.links sh with prevSubOrUpdate := some l }
                resolveLoop upd ntf fuel s1 d
                  (RPhase.scan ((s1.nodes d).deps)) ulog hid
            else if (s.nodes d).versionOrDirtyLevel = DirtyLevels.Dirty then
              let s1 := upd d s
              if (s1.nodes sub).versionOrDirtyLevel = DirtyLevels.Dirty then
                resolveLoop upd ntf fuel s1 sub RPhase.post (ulog ++ [d]) hid
              else
                resolveLoop upd ntf fuel s1 sub
                  (RPhase.scan ((s1.links l).nextDep)) (ulog ++ [d]) hid
            else
              resolveLoop upd ntf fuel s sub
                (RPhase.scan ((s.links l).nextDep)) ulog hid
          else if (s.nodes d).hasNotify then
            let hid1 := hid ||
              ((s.nodes d).versionOrDirtyLevel == DirtyLevels.MaybeDirty) ||
              ((s.nodes d).versionOrDirtyLevel == DirtyLevels.Dirty)
            resolveLoop upd ntf fuel s sub
              (RPhase.scan ((s.links l).nextDep)) ulog hid1
          else
            resolveLoop upd ntf fuel s sub
              (RPhase.scan ((s.links l).nextDep)) ulog hid
        else
          resolveLoop upd ntf fuel s sub
            (RPhase.scan ((s.links l).nextDep)) ulog hid
    | none => resolveLoop upd ntf fuel s sub RPhase.post ulog hid
  | fuel + 1, s, sub, RPhase.post, ulog, hid =>
    let dirtyLevel := (s.nodes sub).versionOrDirtyLevel
    let s1 :=
      if dirtyLevel = DirtyLevels.MaybeDirty then
        s.setNode sub
          { s.nodes sub with versionOrDirtyLevel := DirtyLevels.NotDirty }
      else s
    match (s1.nodes sub).subs with
    | some sh =>
      match (s1.links sh).prevSubOrUpdate with
      | some pl =>
        if dirtyLevel = DirtyLevels.Dirty ∧ ¬ (s1.nodes sub).hasUpdate then
          none
        else
          let s2 := if dirtyLevel = DirtyLevels.Dirty then upd sub s1 else s1
          let ulog1 :=
            if dirtyLevel = DirtyLevels.Dirty then ulog ++ [sub] else ulog
          let s3 := s2.setLink sh { s2.links sh with prevSubOrUpdate := none }
          match (s3.links pl).sub with
          | none => none
          | some psub =>
            resolveLoop upd ntf fuel s3 psub
              (RPhase.scan ((s3.links pl).nextDep)) ulog1 hid
      | none => resolveFinish ntf fuel s1 sub ulog hid
    | none => resolveFinish ntf fuel s1 sub ulog hid

/-- Subscriber.resolveMaybeDirty (lines 359 to 435): decide whether a possibly
stale subscriber is really dirty, downgrading it to NotDirty when no dependency
proves a real change.  upd and ntf are the external update and notify
capabilities; the returned list logs every update invocation in order. -/
def resolveMaybeDirty (upd ntf : Nat → System → System) (fuel : Nat)
    (s : System) (sub : Nat) : Option (System × List Nat) :=
  resolveLoop upd ntf fuel s sub (RPhase.scan ((s.nodes sub).deps)) [] false

/-- Subscriber.startTrack (lines 437 to 444): save the previously active
subscriber, install sub as active, deepen the session nesting, assign sub the
next global version stamp (post-incrementing the counter), and run preTrack
(reset the dependency cursor). -/
def startTrack (s : System) (sub : Nat) : System × Option Nat :=
  let lastActiveSub := s.activeSub
  let s1 := { s with activeSub := some sub,
                     activeSubsDepth := s.activeSubsDepth + 1 }
  let s2 := s1.setNode sub
    { s1.nodes sub with versionOrDirtyLevel := s1.subVersion }
  let s3 := { s2 with subVersion := s2.subVersion + 1 }
  s3.setNode sub { s3.nodes sub with depsTail := none } |> fun s4 =>
    (s4, lastActiveSub)

/-- Subscriber.postTrack (lines 462 to 470): trim every dependency slot at or
after the final cursor position. -/
def postTrack (fuel : Nat) (s : System) (sub : Nat) : Option System :=
  match (s.nodes sub).depsTail with
  | some dt => Link.releaseDeps fuel s dt
  | none =>
    match (s.nodes sub).deps with
    | some d0 =>
      match Link.releaseDeps fuel s d0 with
      | none => none
      | some s1 =>
        match Link.release s1 d0 with
        | none => none
        | some (s2, _) =>
          some (s2.setNode sub { s2.nodes sub with deps := none })
    | none => some s

/-- Subscriber.endTrack (lines 446 to 451): trim stale dependencies, reset the
dual field to NotDirty, and restore the previously active subscriber. -/
def endTrack (fuel : Nat) (s : System) (sub : Nat)
    (lastActiveSub : Option Nat) : Option System :=
  match postTrack fuel s sub with
  | none => none
  | some s1 =>
    let s2 := s1.setNode sub
      { s1.nodes sub with versionOrDirtyLevel := DirtyLevels.NotDirty }
    some { s2 with activeSubsDepth := s2.activeSubsDepth - 1,
                   activeSub := lastActiveSub }

end Subscriber

/-! ### Structural predicates about the graph used by the propagate proofs -/

/-- Membership in the nextSub chain that starts at the given cursor. -/
inductive InSubChain (s : System) : Option Nat → Nat → Prop
  | head (l : Nat) : InSubChain s (some l) l
  | tail (l j : Nat) :
      InSubChain s ((s.links l).nextSub) j → InSubChain s (some l) j

/-- Every link reachable from the cursor along nextSub belongs to dep: its dep
field points back at dep.  This is the subscriber-list well-formedness needed
for the pop of the manual stack to resume at the right Dependency. -/
def CursorOk (s : System) (dep : Nat) (link : Option Nat) : Prop :=
  ∀ j, InSubChain s link j → (s.links j).dep = some dep

/-- Every Dependency's subscriber list is well formed in the CursorOk sense. -/
def SubsWF (s : System) : Prop :=
  ∀ d, CursorOk s d ((s.nodes d).subs)

/-- Two nodes never share the head link of their dependency lists. -/
def DepsHeadInj (s : System) : Prop :=
  ∀ n m dd, (s.nodes n).deps = some dd → (s.nodes m).deps = some dd → n = m

/-- Outside a running walk every dependency-list head has a clear scratch
pointer. -/
def StashClean (s : System) : Prop :=
  ∀ n dd, (s.nodes n).deps = some dd →
    (s.links dd).prevPropagateOrNextReleased = none

/-- The effect queue spells out exactly the list Q: the head pointer is the
first element, nextNotify pointers the rest, and the last nextNotify is
none. -/
def isEffectChain (s : System) : Option Nat → List Nat → Prop
  | none, [] => True
  | some h, e :: rest => h = e ∧ isEffectChain s ((s.nodes h).nextNotify) rest
  | none, _ :: _ => False
  | some _, [] => False

/-- Queue well-formedness carried through propagation: the queue represents Q
without duplicates, the tail pointer is the last element, and every NotDirty
node is fresh: not yet queued and with a clear nextNotify. -/
def QueueInv (s : System) (Q : List Nat) : Prop :=
  isEffectChain s s.queuedEffects Q ∧
  s.queuedEffectsTail = Q.getLast? ∧
  Q.Nodup ∧
  (∀ n, (s.nodes n).versionOrDirtyLevel = DirtyLevels.NotDirty →
    n ∉ Q ∧ (s.nodes n).nextNotify = none)

/-- Well-formedness of the manual propagation stack, listed top frame first.
Each frame (c, l) records the descended-into subscriber c and the return link
l stashed on the scratch pointer of c's dependency-list head; l's sub is c,
l's dep is the parent Dependency the walk will resume at, and the remainder of
the parent's subscriber list hanging off l is well formed.  Frame subscribers
are Dependencies, already raised to at least MaybeDirty, and - when they are
also effects - still fresh with respect to the queue. -/
def stackOk (s : System) (d0 : Nat) (Q : List Nat) :
    List (Nat × Nat) → Nat → Prop
  | [], dep => dep = d0
  | (c, l) :: rest, dep =>
      dep = c ∧
      (s.nodes c).isDep = true ∧
      (∃ dd, (s.nodes c).deps = some dd ∧
        (s.links dd).prevPropagateOrNextReleased = some l) ∧
      (s.links l).sub = some c ∧
      DirtyLevels.MaybeDirty ≤ (s.nodes c).versionOrDirtyLevel ∧
      ((s.nodes c).hasNotify = true → c ∉ Q ∧ (s.nodes c).nextNotify = none) ∧
      (∃ p, (s.links l).dep = some p ∧
        CursorOk s p ((s.links l).nextSub) ∧ stackOk s d0 Q rest p)

/-- Dependency-list heads of nodes outside the stack have clear scratch
pointers. -/
def othersClean (s : System) (st : List (Nat × Nat)) : Prop :=
  ∀ n, n ∉ st.map Prod.fst → ∀ dd, (s.nodes n).deps = some dd →
    (s.links dd).prevPropagateOrNextReleased = none

/-- The full invariant of the propagate walk at loop entry. -/
def WalkInv (s : System) (d0 : Nat) (st : List (Nat × Nat)) (dep : Nat)
    (link : Option Nat) (dirtyLevel depth : Int) (Q : List Nat) : Prop :=
  stackOk s d0 Q st dep ∧
  othersClean s st ∧
  (st.map Prod.fst).Nodup ∧
  depth = st.length ∧
  (st = [] → dirtyLevel = DirtyLevels.Dirty) ∧
  DirtyLevels.MaybeDirty ≤ dirtyLevel ∧
  dirtyLevel ≤ DirtyLevels.Dirty ∧
  CursorOk s dep link ∧
  SubsWF s ∧
  DepsHeadInj s ∧
  QueueInv s Q

/-- Agreement of the whole graph structure (everything propagate never
writes): link endpoints and list pointers, node roles, list heads and tails
and version fields. -/
def GraphEq (s t : System) : Prop :=
  (∀ j, (t.links j).dep = (s.links j).dep ∧
        (t.links j).sub = (s.links j).sub ∧
        (t.links j).nextSub = (s.links j).nextSub ∧
        (t.links j).nextDep = (s.links j).nextDep ∧
        (t.links j).depVersion = (s.links j).depVersion) ∧
  (∀ n, (t.nodes n).isDep = (s.nodes n).isDep ∧
        (t.nodes n).isSub = (s.nodes n).isSub ∧
        (t.nodes n).hasNotify = (s.nodes n).hasNotify ∧
        (t.nodes n).hasUpdate = (s.nodes n).hasUpdate ∧
        (t.nodes n).hasNotifyLostSubs = (s.nodes n).hasNotifyLostSubs ∧
        (t.nodes n).isScope = (s.nodes n).isScope ∧
        (t.nodes n).subs = (s.nodes n).subs ∧
        (t.nodes n).subsTail = (s.nodes n).subsTail ∧
        (t.nodes n).deps = (s.nodes n).deps ∧
        (t.nodes n).depsTail = (s.nodes n).depsTail ∧
        (t.nodes n).depVersion = (s.nodes n).depVersion ∧
        (t.nodes n).subVersion = (s.nodes n).subVersion) ∧
  t.batchDepth = s.batchDepth ∧
  t.activeSub = s.activeSub ∧
  t.activeSubsDepth = s.activeSubsDepth ∧
  t.subVersion = s.subVersion ∧
  t.pool = s.pool ∧
  t.linkCount = s.linkCount

/-! ### Concrete example states used by witnesses and counterexamples -/

/-- A four node chain Source(1) to Derived1(2) to Derived2(3) to Effect(4),
with edges 10 : 1 to 2, 11 : 2 to 3, 12 : 3 to 4, everything NotDirty and the
effect queue empty. -/
def exChain : System :=
  { System.initial with
    linkCount := 13,
    nodes := fun n =>
      if n = 1 then { isDep := true, subs := some 10, subsTail := some 10 }
      else if n = 2 then
        { isDep := true, isSub := true, hasUpdate := true,
          subs := some 11, subsTail := some 11,
          deps := some 10, depsTail := some 10 }
      else if n = 3 then
        { isDep := true, isSub := true, hasUpdate := true,
          subs := some 12, subsTail := some 12,
          deps := some 11, depsTail := some 11 }
      else if n = 4 then
        { isSub := true, hasNotify := true, deps := some 12, depsTail := some 12 }
      else {},
    links := fun l =>
      if l = 10 then { dep := some 1, sub := some 2, depVersion := 0 }
      else if l = 11 then { dep := some 2, sub := some 3, depVersion := 0 }
      else if l = 12 then { dep := some 3, sub := some 4, depVersion := 0 }
      else {} }

/-- An active tracking session: subscriber 0 holds stamp 5, dependency 1 is
fresh, dependency 2 already has subscriber 0 through link 10. -/
def exSession : System :=
  { System.initial with
    linkCount := 20,
    activeSub := some 0, activeSubsDepth := 1,
    nodes := fun n =>
      if n = 0 then { isSub := true, versionOrDirtyLevel := 5 }
      else if n = 1 then { isDep := true, depVersion := 7 }
      else if n = 2 then
        { isDep := true, depVersion := 3, hasNotifyLostSubs := true,
          subs := some 10, subsTail := some 10 }
      else {},
    links := fun l =>
      if l = 10 then { dep := some 2, sub := some 0, depVersion := 3 }
      else {} }

/-- An active tracking session in which the cursor of subscriber 0 sits before
a stale slot: link 10 records the previous-run read of dependency 2, while the
current run is about to read dependency 1 instead. -/
def exStale : System :=
  { System.initial with
    linkCount := 20,
    activeSub := some 0, activeSubsDepth := 1,
    nodes := fun n =>
      if n = 0 then
        { isSub := true, versionOrDirtyLevel := 5, deps := some 10 }
      else if n = 1 then { isDep := true, depVersion := 7 }
      else if n = 2 then
        { isDep := true, depVersion := 3, subs := some 10, subsTail := some 10 }
      else {},
    links := fun l =>
      if l = 10 then { dep := some 2, sub := some 0, depVersion := 3 }
      else {} }

/-- The result of propagating a change of Source(1) through exChain. -/
def exChainRun : System × List (Nat × Int × Int) × List Nat :=
  (Dependency.propagate 20 exChain 1).getD (exChain, [], [])

/-- A session whose active subscriber 0 is scope-marked. -/
def exScope : System :=
  { System.initial with
    activeSub := some 0, activeSubsDepth := 1,
    nodes := fun _ => { isSub := true, isScope := true } }

/-- Two sources 1 and 2 both feeding one effect 3 through links 10 and 11. -/
def exBatch : System :=
  { System.initial with
    linkCount := 12,
    nodes := fun n =>
      if n = 1 then { isDep := true, subs := some 10, subsTail := some 10 }
      else if n = 2 then { isDep := true, subs := some 11, subsTail := some 11 }
      else if n = 3 then
        { isSub := true, hasNotify := true, deps := some 10, depsTail := some 11 }
      else {},
    links := fun l =>
      if l = 10 then { dep := some 1, sub := some 3, nextDep := some 11 }
      else if l = 11 then { dep := some 2, sub := some 3 }
      else {} }

/-! ### Projection lemmas for the point updates -/

@[simp]
theorem nodes_setNode (s : System) (i : Nat) (nd : Node) (j : Nat) :
    (s.setNode i nd).nodes j = if j = i then nd else s.nodes j := rfl

@[simp]
theorem links_setNode (s : System) (i : Nat) (nd : Node) :
    (s.setNode i nd).links = s.links := rfl

@[simp]
theorem pool_setNode (s : System) (i : Nat) (nd : Node) :
    (s.setNode i nd).pool = s.pool := rfl

@[simp]
theorem activeSub_setNode (s : System) (i : Nat) (nd : Node) :
    (s.setNode i nd).activeSub = s.activeSub := rfl

@[simp]
theorem activeSubsDepth_setNode (s : System) (i : Nat) (nd : Node) :
    (s.setNode i nd).activeSubsDepth = s.activeSubsDepth := rfl

@[simp]
theorem batchDepth_setNode (s : System) (i : Nat) (nd : Node) :
    (s.setNode i nd).batchDepth = s.batchDepth := rfl

@[simp]
theorem subVersion_setNode (s : System) (i : Nat) (nd : Node) :
    (s.setNode i nd).subVersion = s.subVersion := rfl

@[simp]
theorem queuedEffects_setNode (s : System) (i : Nat) (nd : Node) :
    (s.setNode i nd).queuedEffects = s.queuedEffects := rfl

@[simp]
theorem queuedEffectsTail_setNode (s : System) (i : Nat) (nd : Node) :
    (s.setNode i nd).queuedEffectsTail = s.queuedEffectsTail := rfl

@[simp]
theorem linkCount_setNode (s : System) (i : Nat) (nd : Node) :
    (s.setNode i nd).linkCount = s.linkCount := rfl

@[simp]
theorem links_setLink (s : System) (i : Nat) (lk : Link) (j : Nat) :
    (s.setLink i lk).links j = if j = i then lk else s.links j := rfl

@[simp]
theorem nodes_setLink (s : System) (i : Nat) (lk : Link) :
    (s.setLink i lk).nodes = s.nodes := rfl

@[simp]
theorem pool_setLink (s : System) (i : Nat) (lk : Link) :
    (s.setLink i lk).pool = s.pool := rfl

@[simp]
theorem activeSub_setLink (s : System) (i : Nat) (lk : Link) :
    (s.setLink i lk).activeSub = s.activeSub := rfl

@[simp]
theorem activeSubsDepth_setLink (s : System) (i : Nat) (lk : Link) :
    (s.setLink i lk).activeSubsDepth = s.activeSubsDepth := rfl

@[simp]
theorem batchDepth_setLink (s : System) (i : Nat) (lk : Link) :
    (s.setLink i lk).batchDepth = s.batchDepth := rfl

@[simp]
theorem subVersion_setLink (s : System) (i : Nat) (lk : Link) :
    (s.setLink i lk).subVersion = s.subVersion := rfl

@[simp]
theorem queuedEffects_setLink (s : System) (i : Nat) (lk : Link) :
    (s.setLink i lk).queuedEffects = s.queuedEffects := rfl

@[simp]
theorem queuedEffectsTail_setLink (s : System) (i : Nat) (lk : Link) :
    (s.setLink i lk).queuedEffectsTail = s.queuedEffectsTail := rfl

@[simp]
theorem linkCount_setLink (s : System) (i : Nat) (lk : Link) :
    (s.setLink i lk).linkCount = s.linkCount := rfl

/-! ### Preservation lemmas for Dependency.link -/

/-- The state t agrees with s on the tracking-context fields and, pointwise,
on the node fields that graph editing never writes. -/
def NPres (s t : System) : Prop :=
  t.activeSub = s.activeSub ∧ t.activeSubsDepth = s.activeSubsDepth ∧
  t.batchDepth = s.batchDepth ∧ t.subVersion = s.subVersion ∧
  ∀ n, (t.nodes n).versionOrDirtyLevel = (s.nodes n).versionOrDirtyLevel ∧
       (t.nodes n).isScope = (s.nodes n).isScope ∧
       (t.nodes n).subVersion = (s.nodes n).subVersion

theorem npres_refl (s : System) : NPres s s :=
  ⟨rfl, rfl, rfl, rfl, fun _ => ⟨rfl, rfl, rfl⟩⟩

theorem npres_trans {s t u : System} (h1 : NPres s t) (h2 : NPres t u) :
    NPres s u := by
  obtain ⟨a1, b1, c1, d1, e1⟩ := h1
  obtain ⟨a2, b2, c2, d2, e2⟩ := h2
  refine ⟨a2.trans a1, b2.trans b1, c2.trans c1, d2.trans d1, fun n => ?_⟩
  obtain ⟨x1, y1, z1⟩ := e1 n
  obtain ⟨x2, y2, z2⟩ := e2 n
  exact ⟨x2.trans x1, y2.trans y1, z2.trans z1⟩

theorem npres_setLink (s : System) (i : Nat) (lk : Link) :
    NPres s (s.setLink i lk) :=
  ⟨rfl, rfl, rfl, rfl, fun _ => ⟨rfl, rfl, rfl⟩⟩

theorem npres_setNode (s : System) (i : Nat) (nd : Node)
    (h1 : nd.versionOrDirtyLevel = (s.nodes i).versionOrDirtyLevel)
    (h2 : nd.isScope = (s.nodes i).isScope)
    (h3 : nd.subVersion = (s.nodes i).subVersion) :
    NPres s (s.setNode i nd) := by
  refine ⟨rfl, rfl, rfl, rfl, fun n => ?_⟩
  simp only [nodes_setNode]
  split
  · next hni => subst hni; exact ⟨h1, h2, h3⟩
  · exact ⟨rfl, rfl, rfl⟩

theorem npres_get (s : System) (dep sub : Nat) :
    NPres s (Link.get s dep sub).1 := by
  unfold Link.get
  cases hp : s.pool <;>
    exact ⟨rfl, rfl, rfl, rfl, fun _ => ⟨rfl, rfl, rfl⟩⟩

theorem npres_linkIntoDeps (s : System) (sub nl : Nat) (depsTail : Option Nat) :
    NPres s (Dependency.linkIntoDeps s sub nl depsTail) := by
  cases depsTail with
  | none => exact npres_setNode _ _ _ rfl rfl rfl
  | some dt =>
    exact npres_trans (npres_setLink s dt _) (npres_setNode _ _ _ rfl rfl rfl)

theorem npres_linkIntoSubs (s : System) (dep nl : Nat) (s' : System)
    (h : Dependency.linkIntoSubs s dep nl = some s') : NPres s s' := by
  unfold Dependency.linkIntoSubs at h
  split at h
  · cases h
    exact npres_setNode _ _ _ rfl rfl rfl
  · split at h
    · exact absurd h (Option.noConfusion)
    · cases h
      exact npres_trans (npres_setLink _ _ _)
        (npres_trans (npres_setLink _ _ _) (npres_setNode _ _ _ rfl rfl rfl))

theorem npres_linkInstall (s : System) (dep sub nl : Nat)
    (depsTail old : Option Nat) (s' : System)
    (h : Dependency.linkInstall s dep sub nl depsTail old = some s') :
    NPres s s' := by
  unfold Dependency.linkInstall at h
  simp only [] at h
  have base : NPres s (Dependency.linkIntoDeps
      (match old with
       | some o =>
         (s.setLink nl { s.links nl with depVersion := (s.nodes dep).depVersion }).setLink
           nl
           { (s.setLink nl
               { s.links nl with depVersion := (s.nodes dep).depVersion }).links nl
               with nextDep := some o }
       | none =>
         s.setLink nl { s.links nl with depVersion := (s.nodes dep).depVersion })
      sub nl depsTail) := by
    cases old with
    | none =>
      exact npres_trans (npres_setLink _ _ _) (npres_linkIntoDeps _ _ _ _)
    | some o =>
      exact npres_trans (npres_setLink _ _ _)
        (npres_trans (npres_setLink _ _ _) (npres_linkIntoDeps _ _ _ _))
  cases old with
  | none => exact npres_trans base (npres_linkIntoSubs _ _ _ _ h)
  | some o => exact npres_trans base (npres_linkIntoSubs _ _ _ _ h)

/-- The fields of the System state and of the nodes that the fresh-link branch
never writes. -/
theorem linkNewBranch_pres (s : System) (dep sub : Nat)
    (depsTail old : Option Nat) (s' : System)
    (h : Dependency.linkNewBranch s dep sub depsTail old = some s') :
    NPres s s' := by
  unfold Dependency.linkNewBranch at h
  simp only [] at h
  exact npres_trans (npres_get s dep sub) (npres_linkInstall _ _ _ _ _ _ _ h)

/-- The state t agrees with s on the tracking-context fields and, pointwise,
on versionOrDirtyLevel and isScope: what Dependency.link as a whole preserves
(it does write subVersion stamps on dependencies). -/
def LPres (s t : System) : Prop :=
  t.activeSub = s.activeSub ∧ t.activeSubsDepth = s.activeSubsDepth ∧
  ∀ n, (t.nodes n).versionOrDirtyLevel = (s.nodes n).versionOrDirtyLevel ∧
       (t.nodes n).isScope = (s.nodes n).isScope

theorem lpres_refl (s : System) : LPres s s :=
  ⟨rfl, rfl, fun _ => ⟨rfl, rfl⟩⟩

theorem lpres_trans {s t u : System} (h1 : LPres s t) (h2 : LPres t u) :
    LPres s u := by
  obtain ⟨a1, b1, e1⟩ := h1
  obtain ⟨a2, b2, e2⟩ := h2
  refine ⟨a2.trans a1, b2.trans b1, fun n => ?_⟩
  obtain ⟨x1, y1⟩ := e1 n
  obtain ⟨x2, y2⟩ := e2 n
  exact ⟨x2.trans x1, y2.trans y1⟩

theorem lpres_of_npres {s t : System} (h : NPres s t) : LPres s t := by
  obtain ⟨a, b, -, -, e⟩ := h
  exact ⟨a, b, fun n => ⟨(e n).1, (e n).2.1⟩⟩

theorem lpres_setNode (s : System) (i : Nat) (nd : Node)
    (h1 : nd.versionOrDirtyLevel = (s.nodes i).versionOrDirtyLevel)
    (h2 : nd.isScope = (s.nodes i).isScope) :
    LPres s (s.setNode i nd) := by
  refine ⟨rfl, rfl, fun n => ?_⟩
  simp only [nodes_setNode]
  split
  · next hni => subst hni; exact ⟨h1, h2⟩
  · exact ⟨rfl, rfl⟩

theorem lpres_setLink (s : System) (i : Nat) (lk : Link) :
    LPres s (s.setLink i lk) :=
  ⟨rfl, rfl, fun _ => ⟨rfl, rfl⟩⟩

/-- Dependency.link preserves the tracking context, every node's
versionOrDirtyLevel and every node's scope marker. -/
theorem link_pres (s : System) (dep : Nat) (a : Bool) (s' : System)
    (h : Dependency.link s dep a = some s') : LPres s s' := by
  unfold Dependency.link at h
  simp only [] at h
  split at h
  · cases h; exact lpres_refl _
  · split at h
    · exact absurd h Option.noConfusion
    · next sub heq =>
      split at h
      · cases h; exact lpres_refl _
      · split at h
        · cases h; exact lpres_refl _
        · split at h
          · split at h
            · cases h
              refine ⟨rfl, rfl, fun n => ?_⟩
              simp only [nodes_setNode, nodes_setLink]
              (repeat' split) <;> simp_all
            · refine lpres_trans ?_
                (lpres_of_npres (linkNewBranch_pres _ _ _ _ _ _ h))
              exact lpres_setNode _ _ _ rfl rfl
          · refine lpres_trans ?_
              (lpres_of_npres (linkNewBranch_pres _ _ _ _ _ _ h))
            exact lpres_setNode _ _ _ rfl rfl

/-- C8: calling Dependency.link with no tracking session active (the
activeSubsDepth counter is zero), or while the active Subscriber is
scope-marked and allowScope is false, returns the state unchanged (in
particular it raises no error: the result is some s, not none, and no
Dependency, Subscriber, Link, pool or System field is modified). -/
theorem link_without_session_or_under_scope_is_noop
    (s : System) (dep : Nat) (a : Bool) :
    (s.activeSubsDepth = 0 → Dependency.link s dep a = some s) ∧
    (∀ sub, s.activeSub = some sub → (s.nodes sub).isScope = true → a = false →
      Dependency.link s dep a = some s) := by
  constructor
  · intro h0
    unfold Dependency.link
    rw [if_pos h0]
  · intro sub hsub hscope ha
    by_cases h0 : s.activeSubsDepth = 0
    · unfold Dependency.link
      rw [if_pos h0]
    · unfold Dependency.link
      rw [if_neg h0, hsub]
      simp only [ha, hscope, Bool.not_false, Bool.and_self, if_pos]

/-- Witness for C8 at concrete states: no session active (the initial system),
and a scope-marked active subscriber with allowScope false. -/
theorem link_without_session_or_under_scope_is_noop_witness :
    Dependency.link System.initial 0 true = some System.initial ∧
    Dependency.link exScope 1 false = some exScope :=
  ⟨(link_without_session_or_under_scope_is_noop System.initial 0 true).1 rfl,
   (link_without_session_or_under_scope_is_noop exScope 1 false).2 0 rfl rfl rfl⟩

/-- In a session-active, scope-permitted call, Dependency.link leaves dep
stamped with the active subscriber's session version. -/
theorem link_stamped (s : System) (dep : Nat) (a : Bool) (s' : System)
    (sub : Nat) (h : Dependency.link s dep a = some s')
    (h0 : ¬ s.activeSubsDepth = 0) (hsub : s.activeSub = some sub)
    (hsc : ¬ ((!a && (s.nodes sub).isScope) = true)) :
    (s'.nodes dep).subVersion = (s.nodes sub).versionOrDirtyLevel := by
  unfold Dependency.link at h
  simp only [] at h
  rw [if_neg h0, hsub] at h
  simp only [] at h
  rw [if_neg hsc] at h
  split at h
  · next heq => cases h; exact heq
  · have hmid : ((s.setNode dep
        { s.nodes dep with
            subVersion := (s.nodes sub).versionOrDirtyLevel }).nodes dep).subVersion
        = (s.nodes sub).versionOrDirtyLevel := by simp
    split at h
    · split at h
      · cases h
        simp only [nodes_setNode, links_setNode, nodes_setLink]
        split <;> simp_all
      · have hp := linkNewBranch_pres _ _ _ _ _ _ h
        rw [((hp.2.2.2.2) dep).2.2, hmid]
    · have hp := linkNewBranch_pres _ _ _ _ _ _ h
      rw [((hp.2.2.2.2) dep).2.2, hmid]

/-- C7: within one tracking session, a second call of Dependency.link for the
same Dependency is a no-op, because after any first call the Dependency's
subVersion equals the active Subscriber's session version stamp and the second
call returns early on that comparison; consequently the session installs at
most one Link between that Dependency and the tracked Subscriber.  Stated as
idempotence over arbitrary states: whenever a call returns a state, calling
again on that state returns it unchanged. -/
theorem link_same_dependency_twice_is_noop
    (s : System) (dep : Nat) (a : Bool) (s' : System)
    (h : Dependency.link s dep a = some s') :
    Dependency.link s' dep a = some s' := by
  obtain ⟨has, had, hfields⟩ := link_pres s dep a s' h
  by_cases h0 : s.activeSubsDepth = 0
  · have hss : s' = s := by
      unfold Dependency.link at h
      rw [if_pos h0] at h
      exact (Option.some.inj h).symm
    subst hss
    unfold Dependency.link
    rw [if_pos h0]
  · cases hsub : s.activeSub with
    | none =>
      unfold Dependency.link at h
      rw [if_neg h0, hsub] at h
      exact absurd h Option.noConfusion
    | some sub =>
      by_cases hsc : (!a && (s.nodes sub).isScope) = true
      · have hss : s' = s := by
          unfold Dependency.link at h
          rw [if_neg h0, hsub] at h
          simp only [hsc, if_pos] at h
          exact (Option.some.inj h).symm
        subst hss
        unfold Dependency.link
        rw [if_neg h0, hsub]
        simp only [hsc, if_pos]
      · have hst := link_stamped s dep a s' sub h h0 hsub hsc
        unfold Dependency.link
        rw [if_neg (by rw [had]; exact h0), has, hsub]
        simp only []
        have hsc' : (!a && (s'.nodes sub).isScope) = false := by
          rw [(hfields sub).2]
          exact Bool.not_eq_true _ ▸ (by simpa using hsc)
        rw [hsc']
        simp only [Bool.false_eq_true, if_false]
        rw [if_pos (by rw [hst, (hfields sub).1])]

/-- Witness for C7: in the running session of exSession, subscriber 0 reads
dependency 1; a repeated read of dependency 1 leaves the state untouched. -/
theorem link_same_dependency_twice_is_noop_witness :
    Dependency.link
      ((Dependency.link exSession 1 true).getD exSession) 1 true
      = some ((Dependency.link exSession 1 true).getD exSession) :=
  link_same_dependency_twice_is_noop exSession 1 true
    ((Dependency.link exSession 1 true).getD exSession) (by rfl)

/-- Link.get installs the requested endpoints on the returned link and leaves
the node heap untouched. -/
theorem get_spec (s : System) (dep sub : Nat) :
    (Link.get s dep sub).1.nodes = s.nodes ∧
    ((Link.get s dep sub).1.links (Link.get s dep sub).2).dep = some dep ∧
    ((Link.get s dep sub).1.links (Link.get s dep sub).2).sub = some sub := by
  unfold Link.get
  cases hp : s.pool <;> simp

/-- With an empty pool, Link.get allocates the fresh id linkCount and touches
no other link. -/
theorem get_spec_fresh (s : System) (dep sub : Nat) (hpool : s.pool = none) :
    (Link.get s dep sub).2 = s.linkCount ∧
    (Link.get s dep sub).1.pool = none ∧
    (∀ j, j ≠ s.linkCount → (Link.get s dep sub).1.links j = s.links j) := by
  unfold Link.get
  rw [hpool]
  refine ⟨rfl, rfl, fun j hj => ?_⟩
  simp [hj]

/-- Effects of the dependency-list insertion: the cursor ends at nl; no link's
dep, sub or depVersion changes; no node's depVersion changes; the pool is
untouched; links other than the previous tail are untouched. -/
theorem linkIntoDeps_spec (s : System) (sub nl : Nat) (dt : Option Nat) :
    ((Dependency.linkIntoDeps s sub nl dt).nodes sub).depsTail = some nl ∧
    (∀ j, ((Dependency.linkIntoDeps s sub nl dt).links j).dep = (s.links j).dep ∧
          ((Dependency.linkIntoDeps s sub nl dt).links j).sub = (s.links j).sub ∧
          ((Dependency.linkIntoDeps s sub nl dt).links j).depVersion
            = (s.links j).depVersion) ∧
    (∀ n, ((Dependency.linkIntoDeps s sub nl dt).nodes n).depVersion
            = (s.nodes n).depVersion) ∧
    (Dependency.linkIntoDeps s sub nl dt).pool = s.pool ∧
    (∀ j, dt ≠ some j → (Dependency.linkIntoDeps s sub nl dt).links j = s.links j) := by
  cases dt with
  | none =>
    refine ⟨by simp [Dependency.linkIntoDeps], fun j => ⟨rfl, rfl, rfl⟩,
      fun n => ?_, rfl, fun j _ => rfl⟩
    simp only [Dependency.linkIntoDeps, nodes_setNode]
    split <;> simp_all
  | some dt =>
    refine ⟨by simp [Dependency.linkIntoDeps], fun j => ?_, fun n => ?_, rfl,
      fun j hj => ?_⟩
    · simp only [Dependency.linkIntoDeps, links_setNode, links_setLink]
      split <;> simp_all
    · simp only [Dependency.linkIntoDeps, nodes_setNode]
      split <;> simp_all
    · have hne : j ≠ dt := fun hc => hj (by rw [hc])
      simp [Dependency.linkIntoDeps, hne]

/-- Effects of the subscriber-list tail insertion: depsTail, deps, depVersion
of every node are untouched; every link's dep, sub, depVersion and nextDep are
untouched; the pool is untouched. -/
theorem linkIntoSubs_spec (s : System) (dep nl : Nat) (s' : System)
    (h : Dependency.linkIntoSubs s dep nl = some s') :
    (∀ n, (s'.nodes n).depsTail = (s.nodes n).depsTail ∧
          (s'.nodes n).deps = (s.nodes n).deps ∧
          (s'.nodes n).depVersion = (s.nodes n).depVersion) ∧
    (∀ j, (s'.links j).dep = (s.links j).dep ∧
          (s'.links j).sub = (s.links j).sub ∧
          (s'.links j).depVersion = (s.links j).depVersion ∧
          (s'.links j).nextDep = (s.links j).nextDep) ∧
    s'.pool = s.pool := by
  unfold Dependency.linkIntoSubs at h
  split at h
  · cases h
    refine ⟨fun n => ?_, fun j => ⟨rfl, rfl, rfl, rfl⟩, rfl⟩
    simp only [nodes_setNode]
    split <;> simp_all
  · split at h
    · exact absurd h Option.noConfusion
    · cases h
      refine ⟨fun n => ?_, fun j => ?_, rfl⟩
      · simp only [nodes_setNode, nodes_setLink]
        split <;> simp_all
      · simp only [links_setNode, links_setLink]
        split <;> split <;> simp_all

/-- Combined effects of installing an acquired link nl: the cursor ends at nl,
nl records dep and dep's current depVersion, no node's depVersion changes, and
the pool is untouched. -/
theorem linkInstall_spec (s : System) (dep sub nl : Nat) (dt old : Option Nat)
    (s' : System) (h : Dependency.linkInstall s dep sub nl dt old = some s')
    (hdep : (s.links nl).dep = some dep) :
    (s'.nodes sub).depsTail = some nl ∧
    (s'.links nl).dep = some dep ∧
    (s'.links nl).depVersion = (s.nodes dep).depVersion ∧
    (∀ n, (s'.nodes n).depVersion = (s.nodes n).depVersion) ∧
    s'.pool = s.pool := by
  unfold Dependency.linkInstall at h
  simp only [] at h
  rcases old with _ | o
  all_goals
    simp only [] at h
    obtain ⟨hA1, hA2, hA3, hA4, -⟩ := linkIntoDeps_spec _ sub nl dt
    obtain ⟨hB1, hB2, hB3⟩ := linkIntoSubs_spec _ dep nl s' h
    refine ⟨?_, ?_, ?_, fun n => ?_, ?_⟩
  · rw [(hB1 sub).1, hA1]
  · rw [(hB2 nl).1, (hA2 nl).1]
    simpa using hdep
  · rw [(hB2 nl).2.2.1, (hA2 nl).2.2]
    simp
  · rw [(hB1 n).2.2, hA3 n]
    simp
  · rw [hB3, hA4]
    simp
  · rw [(hB1 sub).1, hA1]
  · rw [(hB2 nl).1, (hA2 nl).1]
    simpa using hdep
  · rw [(hB2 nl).2.2.1, (hA2 nl).2.2]
    simp
  · rw [(hB1 n).2.2, hA3 n]
    simp
  · rw [hB3, hA4]
    simp

/-- The subscriber-list tail insertion leaves dep's subsTail at nl. -/
theorem linkIntoSubs_tail (s : System) (dep nl : Nat) (s' : System)
    (h : Dependency.linkIntoSubs s dep nl = some s') :
    (s'.nodes dep).subsTail = some nl := by
  unfold Dependency.linkIntoSubs at h
  split at h
  · cases h; simp
  · split at h
    · exact absurd h Option.noConfusion
    · cases h; simp

/-- Installing an acquired link with a stale slot o at the cursor keeps o
chained behind the new link and does not touch o's endpoints. -/
theorem linkInstall_stale_spec (s : System) (dep sub nl : Nat)
    (dt : Option Nat) (o : Nat) (s' : System)
    (h : Dependency.linkInstall s dep sub nl dt (some o) = some s')
    (hdtnl : dt ≠ some nl) (honl : o ≠ nl) :
    (s'.links nl).nextDep = some o ∧
    (s'.links o).dep = (s.links o).dep ∧
    (s'.links o).sub = (s.links o).sub ∧
    (s'.nodes dep).subsTail = some nl := by
  unfold Dependency.linkInstall at h
  simp only [] at h
  obtain ⟨-, hA2, -, -, hA5⟩ := linkIntoDeps_spec _ sub nl dt
  obtain ⟨-, hB2, -⟩ := linkIntoSubs_spec _ dep nl s' h
  refine ⟨?_, ?_, ?_, linkIntoSubs_tail _ dep nl s' h⟩
  · rw [(hB2 nl).2.2.2, congrArg Link.nextDep (hA5 nl hdtnl)]
    simp
  · rw [(hB2 o).1, (hA2 o).1]
    simp [honl]
  · rw [(hB2 o).2.1, (hA2 o).2.1]
    simp [honl]

/-- C3 counterexample: in exStale the cursor of subscriber 0 sits at stale
slot 10 (recording dependency 2) while dependency 1 is read.  The claim says
the stale Link is spliced out and released to the pool; in fact the call
leaves the pool empty, leaves link 10 with its endpoints intact and still in
dependency 2's subscriber list, and merely chains it behind the fresh link 20
via nextDep. -/
theorem link_stale_slot_counterexample :
    Dependency.link exStale 1 true
      = some ((Dependency.link exStale 1 true).getD exStale) ∧
    ((Dependency.link exStale 1 true).getD exStale).pool = none ∧
    (((Dependency.link exStale 1 true).getD exStale).links 10).dep = some 2 ∧
    (((Dependency.link exStale 1 true).getD exStale).links 10).sub = some 0 ∧
    (((Dependency.link exStale 1 true).getD exStale).nodes 2).subs = some 10 ∧
    (((Dependency.link exStale 1 true).getD exStale).links 20).nextDep
      = some 10 := by
  exact ⟨by rfl, by decide, by decide, by decide, by decide, by decide⟩

/-- C3 (amended): when the Dependency read does not match the slot at the
cursor position, a fresh Link is acquired, inserted at the cursor position of
the Subscriber's list and at the tail of the Dependency's subscriber list; the
stale slot is NOT spliced out or released at link time - it is kept chained
behind the fresh Link via nextDep (to be reconciled by a later read or trimmed
at endTrack), its endpoints stay intact, and nothing is returned to the
pool. -/
theorem link_keeps_stale_slot_chained (s : System) (dep : Nat) (a : Bool)
    (s' : System) (sub o : Nat)
    (h0 : ¬ s.activeSubsDepth = 0) (hsub : s.activeSub = some sub)
    (hsc : ¬ ((!a && (s.nodes sub).isScope) = true))
    (hne : ¬ ((s.nodes dep).subVersion = (s.nodes sub).versionOrDirtyLevel))
    (hold : Dependency.cursorSlot s sub = some o)
    (hmiss : ¬ ((s.links o).dep = some dep))
    (hpool : s.pool = none)
    (honl : o ≠ s.linkCount)
    (hdtnl : (s.nodes sub).depsTail ≠ some s.linkCount)
    (h : Dependency.link s dep a = some s') :
    s'.pool = none ∧
    (s'.nodes sub).depsTail = some s.linkCount ∧
    (s'.links s.linkCount).dep = some dep ∧
    (s'.links s.linkCount).nextDep = some o ∧
    (s'.links o).dep = (s.links o).dep ∧
    (s'.links o).sub = (s.links o).sub ∧
    (s'.nodes dep).subsTail = some s.linkCount := by
  unfold Dependency.link at h
  rw [if_neg h0, hsub] at h
  simp only [] at h
  rw [if_neg hsc, if_neg hne] at h
  set s1 : System := s.setNode dep { s.nodes dep with
      subVersion := (s.nodes sub).versionOrDirtyLevel } with hs1def
  have hdt1 : (s1.nodes sub).depsTail = (s.nodes sub).depsTail := by
    rw [hs1def]; simp only [nodes_setNode]; split <;> simp_all
  have hdp1 : (s1.nodes sub).deps = (s.nodes sub).deps := by
    rw [hs1def]; simp only [nodes_setNode]; split <;> simp_all
  have hlk1 : s1.links = s.links := by rw [hs1def]; rfl
  have hct1 : s1.linkCount = s.linkCount := by rw [hs1def]; rfl
  unfold Dependency.cursorSlot at hold
  split at h
  · next o' heq =>
    have ho' : o' = o := by
      rw [hdt1, hlk1] at heq
      cases hc : (s.nodes sub).depsTail <;> rw [hc] at heq hold
      · rw [hdp1] at heq
        rw [heq] at hold
        exact Option.some.inj hold
      · simp only [] at heq hold
        rw [heq] at hold
        exact Option.some.inj hold
    rw [ho'] at h
    rw [if_neg (by rw [hlk1]; exact hmiss)] at h
    unfold Dependency.linkNewBranch at h
    simp only [] at h
    have hpool1 : s1.pool = none := by rw [hs1def]; exact hpool
    obtain ⟨hf1, hf2, hf3⟩ := get_spec_fresh s1 dep sub hpool1
    obtain ⟨hg1, hg2, -⟩ := get_spec s1 dep sub
    rw [hf1] at h hg2
    obtain ⟨hc1, hc2, hc3, hc4, hc5⟩ :=
      linkInstall_spec (Link.get s1 dep sub).1 dep sub s1.linkCount
        ((s1.nodes sub).depsTail) (some o) s' h hg2
    obtain ⟨hd1, hd2, hd3, hd4⟩ :=
      linkInstall_stale_spec (Link.get s1 dep sub).1 dep sub s1.linkCount
        ((s1.nodes sub).depsTail) o s' h
        (by rw [hdt1, hct1]; exact hdtnl)
        (by rw [hct1]; exact honl)
    rw [hct1] at hd1 hc1 hc2 hd4
    refine ⟨?_, hc1, hc2, hd1, ?_, ?_, hd4⟩
    · rw [hc5, hf2]
    · rw [hd2, congrArg Link.dep (hf3 o (by rw [hct1]; exact honl)), hlk1]
    · rw [hd3, congrArg Link.sub (hf3 o (by rw [hct1]; exact honl)), hlk1]
  · next heq =>
    exfalso
    rw [hdt1, hlk1] at heq
    cases hc : (s.nodes sub).depsTail <;> rw [hc] at heq hold
    · rw [hdp1] at heq
      rw [heq] at hold
      exact Option.noConfusion hold
    · simp only [] at heq hold
      rw [heq] at hold
      exact Option.noConfusion hold

/-- Witness for C3 (amended) at the concrete stale-cursor state exStale. -/
theorem link_keeps_stale_slot_chained_witness :
    ((Dependency.link exStale 1 true).getD exStale).pool = none ∧
    (((Dependency.link exStale 1 true).getD exStale).nodes 0).depsTail
      = some 20 ∧
    (((Dependency.link exStale 1 true).getD exStale).links 20).nextDep
      = some 10 :=
  let r := link_keeps_stale_slot_chained exStale 1 true
    ((Dependency.link exStale 1 true).getD exStale) 0 10
    (by decide) rfl (by decide) (by decide) (by decide) (by decide) rfl
    (by decide) (by decide) (by rfl)
  ⟨r.1, r.2.1, r.2.2.2.1⟩

/-- C10: after every successful linking in a session-active, scope-permitted
call where dep is not yet stamped - whether a fresh Link is installed or the
cursor slot is reused because the read order is stable - the Link now at the
Subscriber's cursor records dep and carries depVersion equal to dep's current
depVersion at the moment of the read (which the call itself never changes):
reuse refreshes the recorded version exactly as fresh installation does. -/
theorem link_refreshes_recorded_depVersion (s : System) (dep : Nat) (a : Bool)
    (s' : System) (sub : Nat)
    (h0 : ¬ s.activeSubsDepth = 0) (hsub : s.activeSub = some sub)
    (hsc : ¬ ((!a && (s.nodes sub).isScope) = true))
    (hne : ¬ ((s.nodes dep).subVersion = (s.nodes sub).versionOrDirtyLevel))
    (h : Dependency.link s dep a = some s') :
    ∃ l, (s'.nodes sub).depsTail = some l ∧ (s'.links l).dep = some dep ∧
         (s'.links l).depVersion = (s.nodes dep).depVersion ∧
         (s'.nodes dep).depVersion = (s.nodes dep).depVersion := by
  unfold Dependency.link at h
  rw [if_neg h0, hsub] at h
  simp only [] at h
  rw [if_neg hsc, if_neg hne] at h
  split at h
  · next o heq =>
    split at h
    · next hdep =>
      cases h
      refine ⟨o, by simp, ?_, ?_, ?_⟩
      · simpa using hdep
      · simp
      · simp only [nodes_setNode]
        split <;> split <;> simp_all
    · next hdep =>
      unfold Dependency.linkNewBranch at h
      simp only [] at h
      obtain ⟨hg1, hg2, -⟩ := get_spec _ dep sub
      obtain ⟨hc1, hc2, hc3, hc4, -⟩ := linkInstall_spec _ dep sub _ _ _ s' h hg2
      refine ⟨(Link.get _ dep sub).2, hc1, hc2, ?_, ?_⟩
      · rw [hc3, congrFun hg1 dep]
        simp
      · rw [hc4 dep, congrFun hg1 dep]
        simp
  · unfold Dependency.linkNewBranch at h
    simp only [] at h
    obtain ⟨hg1, hg2, -⟩ := get_spec _ dep sub
    obtain ⟨hc1, hc2, hc3, hc4, -⟩ := linkInstall_spec _ dep sub _ _ _ s' h hg2
    refine ⟨(Link.get _ dep sub).2, hc1, hc2, ?_, ?_⟩
    · rw [hc3, congrFun hg1 dep]
      simp
    · rw [hc4 dep, congrFun hg1 dep]
      simp

/-- Witness for C10: subscriber 0 reads dependency 1 (depVersion 7) in
exSession; the installed link records depVersion 7. -/
theorem link_refreshes_recorded_depVersion_witness :
    ∃ l, (((Dependency.link exSession 1 true).getD exSession).nodes 0).depsTail
          = some l ∧
        (((Dependency.link exSession 1 true).getD exSession).links l).dep
          = some 1 ∧
        (((Dependency.link exSession 1 true).getD exSession).links l).depVersion
          = (exSession.nodes 1).depVersion ∧
        (((Dependency.link exSession 1 true).getD exSession).nodes 1).depVersion
          = (exSession.nodes 1).depVersion :=
  link_refreshes_recorded_depVersion exSession 1 true
    ((Dependency.link exSession 1 true).getD exSession) 0
    (by decide) rfl (by decide) (by decide) (by rfl)

/-- C9: releasing a Link invokes its Dependency's subscriber-lost callback
(notifyLostSubs) exactly once, synchronously within the release, precisely
when the removal leaves the Dependency's subscriber list empty - the released
Link had no list neighbours - and the callback is present.  A release that
leaves at least one subscriber behind (the Link had a successor, or it had a
predecessor and the list head survives) does not invoke the callback.  The
returned Bool is the model of the single synchronous invocation. -/
theorem release_fires_lost_subscriber_callback_iff_list_empties
    (s : System) (l d : Nat) (hd : (s.links l).dep = some d) :
    ((s.links l).prevSubOrUpdate = none → (s.links l).nextSub = none →
      (s.nodes d).hasNotifyLostSubs = true →
      (Link.release s l).map Prod.snd = some true) ∧
    ((s.links l).prevSubOrUpdate = none → ∀ m, (s.links l).nextSub = some m →
      (Link.release s l).map Prod.snd = some false) ∧
    (∀ p, (s.links l).prevSubOrUpdate = some p → ¬ (s.nodes d).subs = none →
      (Link.release s l).map Prod.snd = some false) := by
  refine ⟨fun hp hn hcb => ?_, fun hp m hn => ?_, fun p hp hs => ?_⟩
  · simp [Link.release, Link.unlinkSub, hd, hp, hn, hcb]
  · simp [Link.release, Link.unlinkSub, hd, hp, hn]
  · cases hn : (s.links l).nextSub with
    | none =>
      simp only [Link.release, Link.unlinkSub, hd, hp, hn]
      simp only [Option.isNone_iff_eq_none, reduceIte, nodes_setNode,
        links_setLink]
      simp [hs]
    | some m =>
      simp only [Link.release, Link.unlinkSub, hd, hp, hn]
      simp only [Option.isNone_iff_eq_none, reduceIte, nodes_setNode,
        links_setLink, links_setNode]
      simp [hs]

/-- Witness for C9: releasing the sole subscriber link 10 of dependency 2 in
exSession, whose notifyLostSubs callback is present, fires the callback. -/
theorem release_fires_lost_subscriber_callback_iff_list_empties_witness :
    (Link.release exSession 10).map Prod.snd = some true :=
  (release_fires_lost_subscriber_callback_iff_list_empties exSession 10 2
    (by decide)).1 (by decide) (by decide) (by decide)

/-- Enqueueing an effect does not change any node's versionOrDirtyLevel. -/
theorem level_enqueueEffect (s : System) (e n : Nat) :
    ((Dependency.enqueueEffect s e).nodes n).versionOrDirtyLevel
      = (s.nodes n).versionOrDirtyLevel := by
  unfold Dependency.enqueueEffect
  split
  · simp only [nodes_setNode]
    split <;> simp_all
  · rfl

/-- One visit of the propagate walk only ever raises the visited subscriber's
versionOrDirtyLevel (the write is guarded by a strict comparison), so the
whole fueled walk is pointwise monotone on versionOrDirtyLevel. -/
theorem propagateLoop_mono :
    ∀ fuel (s : System) (dep : Nat) (link : Option Nat)
      (dirtyLevel depth : Int) (vlog : List (Nat × Int × Int)) (elog : List Nat)
      (s' : System) (vlog' : List (Nat × Int × Int)) (elog' : List Nat),
    Dependency.propagateLoop fuel s dep link dirtyLevel depth vlog elog
      = some (s', vlog', elog') →
    ∀ n, (s.nodes n).versionOrDirtyLevel ≤ (s'.nodes n).versionOrDirtyLevel := by
  intro fuel
  induction fuel with
  | zero =>
    intro s dep link dirtyLevel depth vlog elog s' vlog' elog' h
    exact absurd h Option.noConfusion
  | succ fuel ih =>
    intro s dep link dirtyLevel depth vlog elog s' vlog' elog' h n
    unfold Dependency.propagateLoop at h
    simp only [] at h
    have hraise : ∀ (subId : Nat),
        (s.nodes n).versionOrDirtyLevel ≤
        ((if (s.nodes subId).versionOrDirtyLevel < dirtyLevel then
            s.setNode subId
              { s.nodes subId with versionOrDirtyLevel := dirtyLevel }
          else s).nodes n).versionOrDirtyLevel := by
      intro subId
      split
      · next hlt =>
        simp only [nodes_setNode]
        split
        · next hn => subst hn; exact le_of_lt hlt
        · exact le_refl _
      · exact le_refl _
    rcases link with _ | l
    · -- pop or break
      simp only [] at h
      rcases hdd : (s.nodes dep).deps with _ | dd <;> rw [hdd] at h <;>
        (try simp only [] at h)
      · cases h; exact le_refl _
      · rcases hpl : (s.links dd).prevPropagateOrNextReleased with _ | pl <;>
          rw [hpl] at h <;> (try simp only [] at h)
        · cases h; exact le_refl _
        · rcases hpd : ((s.setLink dd { s.links dd with
              prevPropagateOrNextReleased := none }).links pl).dep
            with _ | pdep <;> rw [hpd] at h <;> (try simp only [] at h)
          · exact absurd h Option.noConfusion
          · rcases hps : ((s.setLink dd { s.links dd with
                prevPropagateOrNextReleased := none }).links pl).sub
              with _ | prevSub <;> rw [hps] at h <;> (try simp only [] at h)
            · exact absurd h Option.noConfusion
            · have hmid := ih _ _ _ _ _ _ _ _ _ _ h n
              refine le_trans ?_ hmid
              split
              · rw [level_enqueueEffect]; exact le_refl _
              · exact le_refl _
    · -- visit one link
      simp only [] at h
      rcases hsl : (s.links l).sub with _ | subId <;> rw [hsl] at h <;>
        (try simp only [] at h)
      · exact absurd h Option.noConfusion
      · set smid := (if (s.nodes subId).versionOrDirtyLevel < dirtyLevel then
            s.setNode subId
              { s.nodes subId with versionOrDirtyLevel := dirtyLevel }
          else s) with hsmid
        have hr : ∀ m, (s.nodes m).versionOrDirtyLevel
            ≤ (smid.nodes m).versionOrDirtyLevel := by
          intro m
          rw [hsmid]
          split
          · next hlt =>
            simp only [nodes_setNode]
            split
            · next hm => subst hm; exact le_of_lt hlt
            · exact le_refl _
          · exact le_refl _
        split at h
        · -- prior level NotDirty
          split at h
          · -- descend into a derived subscriber
            rcases hdd : (smid.nodes subId).deps with _ | dd <;>
              rw [hdd] at h <;> (try simp only [] at h)
            · exact absurd h Option.noConfusion
            · exact le_trans (hr n) (ih _ _ _ _ _ _ _ _ _ _ h n)
          · split at h
            · -- enqueue a plain effect
              refine le_trans (hr n) (le_trans (le_of_eq ?_)
                (ih _ _ _ _ _ _ _ _ _ _ h n))
              exact (level_enqueueEffect smid subId n).symm
            · exact le_trans (hr n) (ih _ _ _ _ _ _ _ _ _ _ h n)
        · exact le_trans (hr n) (ih _ _ _ _ _ _ _ _ _ _ h n)

theorem graphEq_refl (s : System) : GraphEq s s :=
  ⟨fun _ => ⟨rfl, rfl, rfl, rfl, rfl⟩,
   fun _ => ⟨rfl, rfl, rfl, rfl, rfl, rfl, rfl, rfl, rfl, rfl, rfl, rfl⟩,
   rfl, rfl, rfl, rfl, rfl, rfl⟩

theorem graphEq_trans {s t u : System} (h1 : GraphEq s t) (h2 : GraphEq t u) :
    GraphEq s u := by
  obtain ⟨l1, n1, r1⟩ := h1
  obtain ⟨l2, n2, r2⟩ := h2
  refine ⟨fun j => ?_, fun n => ?_, ?_, ?_, ?_, ?_, ?_, ?_⟩
  · obtain ⟨a1, b1, c1, d1, e1⟩ := l1 j
    obtain ⟨a2, b2, c2, d2, e2⟩ := l2 j
    exact ⟨a2.trans a1, b2.trans b1, c2.trans c1, d2.trans d1, e2.trans e1⟩
  · obtain ⟨a1, b1, c1, d1, e1, f1, g1, h1, i1, j1, k1, m1⟩ := n1 n
    obtain ⟨a2, b2, c2, d2, e2, f2, g2, h2, i2, j2, k2, m2⟩ := n2 n
    exact ⟨a2.trans a1, b2.trans b1, c2.trans c1, d2.trans d1, e2.trans e1,
      f2.trans f1, g2.trans g1, h2.trans h1, i2.trans i1, j2.trans j1,
      k2.trans k1, m2.trans m1⟩
  all_goals
    first
      | exact r2.1.trans r1.1
      | exact r2.2.1.trans r1.2.1
      | exact r2.2.2.1.trans r1.2.2.1
      | exact r2.2.2.2.1.trans r1.2.2.2.1
      | exact r2.2.2.2.2.1.trans r1.2.2.2.2.1
      | exact r2.2.2.2.2.2.trans r1.2.2.2.2.2

theorem graphEq_setLink_stash (s : System) (i : Nat) (x : Option Nat) :
    GraphEq s (s.setLink i
      { s.links i with prevPropagateOrNextReleased := x }) := by
  refine ⟨fun j => ?_, fun n => ?_, rfl, rfl, rfl, rfl, rfl, rfl⟩
  · simp only [links_setLink]
    split <;> simp_all
  · exact ⟨rfl, rfl, rfl, rfl, rfl, rfl, rfl, rfl, rfl, rfl, rfl, rfl⟩

theorem graphEq_setNode_level (s : System) (i : Nat) (v : Int) :
    GraphEq s (s.setNode i
      { s.nodes i with versionOrDirtyLevel := v }) := by
  refine ⟨fun j => ⟨rfl, rfl, rfl, rfl, rfl⟩, fun n => ?_, rfl, rfl, rfl,
    rfl, rfl, rfl⟩
  simp only [nodes_setNode]
  split <;> simp_all

theorem graphEq_enqueueEffect (s : System) (e : Nat) :
    GraphEq s (Dependency.enqueueEffect s e) := by
  unfold Dependency.enqueueEffect
  split
  · refine ⟨fun j => ⟨rfl, rfl, rfl, rfl, rfl⟩, fun n => ?_, rfl, rfl, rfl,
      rfl, rfl, rfl⟩
    simp only [nodes_setNode]
    split <;> simp_all
  · exact ⟨fun j => ⟨rfl, rfl, rfl, rfl, rfl⟩,
      fun n => ⟨rfl, rfl, rfl, rfl, rfl, rfl, rfl, rfl, rfl, rfl, rfl, rfl⟩,
      rfl, rfl, rfl, rfl, rfl, rfl⟩

/-- The propagate walk writes only dirty levels, scratch pointers, nextNotify
chains and the queue head and tail: the whole graph structure is preserved. -/
theorem propagateLoop_graphEq :
    ∀ fuel (s : System) (dep : Nat) (link : Option Nat)
      (dirtyLevel depth : Int) (vlog : List (Nat × Int × Int)) (elog : List Nat)
      (s' : System) (vlog' : List (Nat × Int × Int)) (elog' : List Nat),
    Dependency.propagateLoop fuel s dep link dirtyLevel depth vlog elog
      = some (s', vlog', elog') →
    GraphEq s s' := by
  intro fuel
  induction fuel with
  | zero =>
    intro s dep link dirtyLevel depth vlog elog s' vlog' elog' h
    exact absurd h Option.noConfusion
  | succ fuel ih =>
    intro s dep link dirtyLevel depth vlog elog s' vlog' elog' h
    unfold Dependency.propagateLoop at h
    simp only [] at h
    rcases link with _ | l
    · simp only [] at h
      rcases hdd : (s.nodes dep).deps with _ | dd <;> rw [hdd] at h <;>
        (try simp only [] at h)
      · cases h; exact graphEq_refl _
      · rcases hpl : (s.links dd).prevPropagateOrNextReleased with _ | pl <;>
          rw [hpl] at h <;> (try simp only [] at h)
        · cases h; exact graphEq_refl _
        · rcases hpd : ((s.setLink dd { s.links dd with
              prevPropagateOrNextReleased := none }).links pl).dep
            with _ | pdep <;> rw [hpd] at h <;> (try simp only [] at h)
          · exact absurd h Option.noConfusion
          · rcases hps : ((s.setLink dd { s.links dd with
                prevPropagateOrNextReleased := none }).links pl).sub
              with _ | prevSub <;> rw [hps] at h <;> (try simp only [] at h)
            · exact absurd h Option.noConfusion
            · refine graphEq_trans (graphEq_setLink_stash s dd none)
                (graphEq_trans ?_ (ih _ _ _ _ _ _ _ _ _ _ h))
              split
              · exact graphEq_enqueueEffect _ _
              · exact graphEq_refl _
    · simp only [] at h
      rcases hsl : (s.links l).sub with _ | subId <;> rw [hsl] at h <;>
        (try simp only [] at h)
      · exact absurd h Option.noConfusion
      · set smid := (if (s.nodes subId).versionOrDirtyLevel < dirtyLevel then
            s.setNode subId
              { s.nodes subId with versionOrDirtyLevel := dirtyLevel }
          else s) with hsmid
        have hgmid : GraphEq s smid := by
          rw [hsmid]
          split
          · exact graphEq_setNode_level _ _ _
          · exact graphEq_refl _
        split at h
        · split at h
          · rcases hdd : (smid.nodes subId).deps with _ | dd <;>
              rw [hdd] at h <;> (try simp only [] at h)
            · exact absurd h Option.noConfusion
            · exact graphEq_trans hgmid
                (graphEq_trans (graphEq_setLink_stash smid dd (some l))
                  (ih _ _ _ _ _ _ _ _ _ _ h))
          · split at h
            · exact graphEq_trans hgmid
                (graphEq_trans (graphEq_enqueueEffect smid subId)
                  (ih _ _ _ _ _ _ _ _ _ _ h))
            · exact graphEq_trans hgmid (ih _ _ _ _ _ _ _ _ _ _ h)
        · exact graphEq_trans hgmid (ih _ _ _ _ _ _ _ _ _ _ h)

theorem inSubChain_of_graphEq {s t : System} (hg : GraphEq s t)
    {link : Option Nat} {j : Nat} (h : InSubChain t link j) :
    InSubChain s link j := by
  induction h with
  | head l => exact .head l
  | tail l j h ihc => exact .tail l j ((hg.1 l).2.2.1 ▸ ihc)

theorem cursorOk_of_graphEq {s t : System} (hg : GraphEq s t) {dep : Nat}
    {link : Option Nat} (h : CursorOk s dep link) : CursorOk t dep link := by
  intro j hj
  rw [(hg.1 j).1]
  exact h j (inSubChain_of_graphEq hg hj)

theorem subsWF_of_graphEq {s t : System} (hg : GraphEq s t) (h : SubsWF s) :
    SubsWF t := by
  intro d
  rw [(hg.2.1 d).2.2.2.2.2.2.1]
  exact cursorOk_of_graphEq hg (h d)

theorem depsHeadInj_of_graphEq {s t : System} (hg : GraphEq s t)
    (h : DepsHeadInj s) : DepsHeadInj t := by
  intro n m dd hn hm
  rw [(hg.2.1 n).2.2.2.2.2.2.2.2.1] at hn
  rw [(hg.2.1 m).2.2.2.2.2.2.2.2.1] at hm
  exact h n m dd hn hm

theorem isEffectChain_congr (s t : System)
    (hnn : ∀ n, (t.nodes n).nextNotify = (s.nodes n).nextNotify) :
    ∀ (Q : List Nat) (head : Option Nat),
    isEffectChain s head Q → isEffectChain t head Q := by
  intro Q
  induction Q with
  | nil =>
    intro head h
    cases head <;> simpa [isEffectChain] using h
  | cons q rest ihq =>
    intro head h
    cases head with
    | none => simp [isEffectChain] at h
    | some hd =>
      obtain ⟨rfl, hrest⟩ := h
      exact ⟨rfl, hnn hd ▸ ihq _ hrest⟩

theorem isEffectChain_snoc (s : System) (e : Nat)
    (hen : (s.nodes e).nextNotify = none) :
    ∀ (Q : List Nat) (head : Option Nat), isEffectChain s head Q → Q.Nodup →
    e ∉ Q → ∀ t, Q.getLast? = some t →
    isEffectChain (s.setNode t { s.nodes t with nextNotify := some e }) head
      (Q ++ [e]) := by
  intro Q
  induction Q with
  | nil =>
    intro head h hnd hni t hlast
    exact absurd hlast (by simp)
  | cons q rest ihq =>
    intro head h hnd hni t hlast
    cases head with
    | none => simp [isEffectChain] at h
    | some hd =>
      obtain ⟨heq, hrest⟩ := h
      cases rest with
      | nil =>
        have ht : q = t := by simpa using hlast
        have hne : e ≠ t := fun hc => hni (by simp [hc, ← ht])
        have hht : hd = t := heq.trans ht
        refine ⟨heq, ?_⟩
        have h1 : ((s.setNode t { s.nodes t with
            nextNotify := some e }).nodes hd).nextNotify = some e := by
          simp [hht]
        rw [h1]
        refine ⟨rfl, ?_⟩
        have h2 : ((s.setNode t { s.nodes t with
            nextNotify := some e }).nodes e).nextNotify = none := by
          simp [hne, hen]
        rw [h2]
        trivial
      | cons r rest2 =>
        have hlast2 : (r :: rest2).getLast? = some t := by
          rw [List.getLast?_cons_cons] at hlast
          exact hlast
        have hqt : hd ≠ t := by
          intro hc
          apply (List.nodup_cons.mp hnd).1
          rw [← heq, hc]
          exact List.mem_of_mem_getLast? hlast2
        refine ⟨heq, ?_⟩
        have hstep := ihq ((s.nodes hd).nextNotify) hrest
          (List.nodup_cons.mp hnd).2 (fun hc => hni (List.mem_cons_of_mem _ hc))
          t hlast2
        simpa [nodes_setNode, hqt] using hstep

theorem queueInv_setLink (s : System) (i : Nat) (lk : Link) (Q : List Nat)
    (h : QueueInv s Q) : QueueInv (s.setLink i lk) Q := by
  obtain ⟨hch, htl, hnd, hfr⟩ := h
  exact ⟨isEffectChain_congr s (s.setLink i lk) (fun n => rfl) Q
    s.queuedEffects hch, htl, hnd, fun n hl => hfr n hl⟩

theorem queueInv_level_raise (s : System) (i : Nat) (v : Int) (Q : List Nat)
    (hv : v ≠ DirtyLevels.NotDirty) (h : QueueInv s Q) :
    QueueInv (s.setNode i { s.nodes i with versionOrDirtyLevel := v }) Q := by
  obtain ⟨hch, htl, hnd, hfr⟩ := h
  refine ⟨isEffectChain_congr s _ ?_ Q s.queuedEffects hch, htl, hnd,
    fun n hlev => ?_⟩
  · intro n
    simp only [nodes_setNode]
    split <;> simp_all
  · simp only [nodes_setNode] at hlev ⊢
    by_cases hni : n = i
    · rw [if_pos hni] at hlev
      exact absurd hlev hv
    · rw [if_neg hni] at hlev ⊢
      exact hfr n hlev

theorem queueInv_enqueue (s : System) (e : Nat) (Q : List Nat)
    (h : QueueInv s Q)
    (hlev : (s.nodes e).versionOrDirtyLevel ≠ DirtyLevels.NotDirty)
    (hni : e ∉ Q) (hen : (s.nodes e).nextNotify = none) :
    QueueInv (Dependency.enqueueEffect s e) (Q ++ [e]) := by
  obtain ⟨hch, htl, hnd, hfr⟩ := h
  rcases hqt : s.queuedEffectsTail with _ | t
  all_goals unfold Dependency.enqueueEffect
  all_goals rw [hqt]
  all_goals simp only []
  · -- empty queue
    have hQnil : Q = [] := by
      rw [hqt] at htl
      cases Q with
      | nil => rfl
      | cons q rest =>
        exact absurd htl.symm (by simp [List.getLast?_eq_none_iff])
    subst hQnil
    refine ⟨⟨rfl, ?_⟩, by simp, by simp, fun n hl => ?_⟩
    · have h2 : (({ s with queuedEffectsTail := some e, queuedEffects := some e } : System).nodes e).nextNotify = none := hen
      rw [h2]
      trivial
    · have hl2 : (s.nodes n).versionOrDirtyLevel = DirtyLevels.NotDirty := hl
      have := hfr n hl2
      refine ⟨?_, this.2⟩
      simp only [List.nil_append, List.mem_singleton]
      intro hc
      subst hc
      exact hlev hl2
  · -- nonempty queue, tail t
    have htQ : Q.getLast? = some t := by rw [← htl, hqt]
    have htmem : t ∈ Q := List.mem_of_mem_getLast? htQ
    have hne : e ≠ t := fun hc => hni (hc ▸ htmem)
    have hkey : ∀ n, ((s.setNode t { s.nodes t with nextNotify := some e }).nodes n).versionOrDirtyLevel = (s.nodes n).versionOrDirtyLevel := by
      intro n
      simp only [nodes_setNode]
      split <;> simp_all
    refine ⟨?_, ?_, ?_, fun n hl => ?_⟩
    · refine isEffectChain_congr
        (s.setNode t { s.nodes t with nextNotify := some e }) _ ?_
        (Q ++ [e]) s.queuedEffects
        (isEffectChain_snoc s e hen Q s.queuedEffects hch hnd hni t htQ)
      intro n
      rfl
    · show some e = (Q ++ [e]).getLast?
      rw [List.getLast?_concat]
    · simp only [List.nodup_append, List.nodup_singleton]
      exact ⟨hnd, trivial, by simpa [List.disjoint_singleton] using hni⟩
    · have hlev2 : (s.nodes n).versionOrDirtyLevel = DirtyLevels.NotDirty := by
        rw [← hkey n]
        exact hl
      obtain ⟨hq1, hq2⟩ := hfr n hlev2
      have hnt : n ≠ t := fun hc => hq1 (hc ▸ htmem)
      have hnne : n ≠ e := fun hc => hlev (hc ▸ hlev2)
      constructor
      · simp only [List.mem_append, List.mem_singleton]
        rintro (hc | hc)
        · exact hq1 hc
        · exact hnne hc
      · show ((s.setNode t { s.nodes t with
          nextNotify := some e }).nodes n).nextNotify = none
        simp only [nodes_setNode, if_neg hnt]
        exact hq2

/-- C5: within a single Dependency.propagate pass, every Subscriber's
versionOrDirtyLevel is pointwise monotone - it only ever increases and is
never decreased, regardless of the order in which the walk visits nodes (all
visit orders are instances of the universally quantified walk state, so a node
reached again through a shallower path is upgraded while a later deeper visit
can never downgrade it: the only write is guarded by a strict less-than). -/
theorem propagate_levels_only_increase (fuel : Nat) (s : System) (d : Nat)
    (s' : System) (vlog : List (Nat × Int × Int)) (elog : List Nat)
    (h : Dependency.propagate fuel s d = some (s', vlog, elog)) :
    ∀ n, (s.nodes n).versionOrDirtyLevel ≤ (s'.nodes n).versionOrDirtyLevel := by
  unfold Dependency.propagate at h
  simp only [] at h
  intro n
  refine le_trans (le_of_eq ?_) (propagateLoop_mono fuel _ d _ _ _ [] [] s'
    vlog elog h n)
  simp only [nodes_setNode]
  split <;> simp_all

/-- Witness for C5 on the concrete chain exChain: propagating Source(1) only
raises the levels of Derived1(2), Derived2(3) and Effect(4). -/
theorem propagate_levels_only_increase_witness :
    (exChain.nodes 2).versionOrDirtyLevel
        ≤ ((exChainRun.1).nodes 2).versionOrDirtyLevel ∧
    (exChain.nodes 3).versionOrDirtyLevel
        ≤ ((exChainRun.1).nodes 3).versionOrDirtyLevel ∧
    (exChain.nodes 4).versionOrDirtyLevel
        ≤ ((exChainRun.1).nodes 4).versionOrDirtyLevel :=
  ⟨propagate_levels_only_increase 20 exChain 1 exChainRun.1 exChainRun.2.1
      exChainRun.2.2 (by rfl) 2,
   propagate_levels_only_increase 20 exChain 1 exChainRun.1 exChainRun.2.1
      exChainRun.2.2 (by rfl) 3,
   propagate_levels_only_increase 20 exChain 1 exChainRun.1 exChainRun.2.1
      exChainRun.2.2 (by rfl) 4⟩

/-- The stamp Subscriber.startTrack assigns is the current global counter, and
the counter is post-incremented. -/
theorem startTrack_stamp (s : System) (sub : Nat) :
    ((Subscriber.startTrack s sub).1.nodes sub).versionOrDirtyLevel
      = s.subVersion ∧
    (Subscriber.startTrack s sub).1.subVersion = s.subVersion + 1 := by
  constructor <;> simp [Subscriber.startTrack]

/-- C4 counterexample: on the freshly initialised system the very first stamp
that startTrack assigns is DirtyLevels.Dirty + 1 = 3, which is strictly
greater than every dirty-level code but not greater than or equal to 4, so the
claim's bound of 4 is wrong. -/
theorem startTrack_first_stamp_is_three :
    ((Subscriber.startTrack System.initial 0).1.nodes 0).versionOrDirtyLevel
        = 3 ∧
    ¬ (4 ≤ ((Subscriber.startTrack System.initial 0).1.nodes 0).versionOrDirtyLevel) := by
  constructor <;> decide

/-- C4 (amended): every version stamp startTrack assigns is strictly greater
than every dirty-level code in NotDirty = 0, MaybeDirty = 1, Dirty = 2 (that
is, at least 3), whenever the global counter is above Dirty, which holds at
module load where it starts at Dirty + 1 = 3 and is only ever incremented; and
successive startTrack calls assign strictly increasing stamps. -/
theorem startTrack_stamps_exceed_dirty_levels (s : System) (sub sub2 : Nat)
    (h : DirtyLevels.Dirty < s.subVersion) :
    DirtyLevels.NotDirty
        < ((Subscriber.startTrack s sub).1.nodes sub).versionOrDirtyLevel ∧
    DirtyLevels.MaybeDirty
        < ((Subscriber.startTrack s sub).1.nodes sub).versionOrDirtyLevel ∧
    DirtyLevels.Dirty
        < ((Subscriber.startTrack s sub).1.nodes sub).versionOrDirtyLevel ∧
    ((Subscriber.startTrack s sub).1.nodes sub).versionOrDirtyLevel
        = s.subVersion ∧
    ((Subscriber.startTrack (Subscriber.startTrack s sub).1 sub2).1.nodes
        sub2).versionOrDirtyLevel = s.subVersion + 1 ∧
    ((Subscriber.startTrack s sub).1.nodes sub).versionOrDirtyLevel
        < ((Subscriber.startTrack (Subscriber.startTrack s sub).1 sub2).1.nodes
            sub2).versionOrDirtyLevel := by
  obtain ⟨h1, h2⟩ := startTrack_stamp s sub
  obtain ⟨h3, -⟩ := startTrack_stamp (Subscriber.startTrack s sub).1 sub2
  rw [h1, h3, h2]
  refine ⟨?_, ?_, h, rfl, rfl, ?_⟩ <;> simp only [DirtyLevels.NotDirty,
    DirtyLevels.MaybeDirty, DirtyLevels.Dirty] at h ⊢ <;> omega

/-- Witness for C4 (amended) at the freshly initialised system. -/
theorem startTrack_stamps_exceed_dirty_levels_witness :
    DirtyLevels.Dirty
        < ((Subscriber.startTrack System.initial 0).1.nodes 0).versionOrDirtyLevel ∧
    ((Subscriber.startTrack System.initial 0).1.nodes 0).versionOrDirtyLevel
        < ((Subscriber.startTrack (Subscriber.startTrack System.initial 0).1
            1).1.nodes 1).versionOrDirtyLevel :=
  ⟨(startTrack_stamps_exceed_dirty_levels System.initial 0 1 (by decide)).2.2.1,
   (startTrack_stamps_exceed_dirty_levels System.initial 0 1 (by decide)).2.2.2.2.2⟩

end Computeds

namespace Computeds

theorem GraphEq.lDep {s t : System} (hg : GraphEq s t) (j : Nat) :
    (t.links j).dep = (s.links j).dep := (hg.1 j).1

theorem GraphEq.lSub {s t : System} (hg : GraphEq s t) (j : Nat) :
    (t.links j).sub = (s.links j).sub := (hg.1 j).2.1

theorem GraphEq.lNextSub {s t : System} (hg : GraphEq s t) (j : Nat) :
    (t.links j).nextSub = (s.links j).nextSub := (hg.1 j).2.2.1

theorem GraphEq.nIsDep {s t : System} (hg : GraphEq s t) (n : Nat) :
    (t.nodes n).isDep = (s.nodes n).isDep := (hg.2.1 n).1

theorem GraphEq.nHasNotify {s t : System} (hg : GraphEq s t) (n : Nat) :
    (t.nodes n).hasNotify = (s.nodes n).hasNotify := (hg.2.1 n).2.2.1

theorem GraphEq.nSubs {s t : System} (hg : GraphEq s t) (n : Nat) :
    (t.nodes n).subs = (s.nodes n).subs := (hg.2.1 n).2.2.2.2.2.2.1

theorem GraphEq.nDeps {s t : System} (hg : GraphEq s t) (n : Nat) :
    (t.nodes n).deps = (s.nodes n).deps := (hg.2.1 n).2.2.2.2.2.2.2.2.1

/-- Transfer of stack well-formedness across a state change that preserves the
graph, does not touch the stashes at stack frames' dependency-list heads, only
raises levels, and keeps queued-effect freshness of the frames. -/
theorem stackOk_adapt (s t : System) (d0 : Nat) (Q Q2 : List Nat) :
    ∀ (st : List (Nat × Nat)) (dep : Nat),
    GraphEq s t →
    (∀ c l : Nat, (c, l) ∈ st → ∀ dd, (s.nodes c).deps = some dd →
      (t.links dd).prevPropagateOrNextReleased
        = (s.links dd).prevPropagateOrNextReleased) →
    (∀ n, (s.nodes n).versionOrDirtyLevel ≤ (t.nodes n).versionOrDirtyLevel) →
    (∀ c l, (c, l) ∈ st → (s.nodes c).hasNotify = true →
      c ∉ Q2 ∧ (t.nodes c).nextNotify = (s.nodes c).nextNotify) →
    stackOk s d0 Q st dep → stackOk t d0 Q2 st dep := by
  intro st
  induction st with
  | nil => intro dep _ _ _ _ h; exact h
  | cons f rest ih =>
    rcases f with ⟨c, l⟩
    intro dep hg hstash hlev hfr h
    obtain ⟨h1, h2, ⟨dd, hdd1, hdd2⟩, h4, h5, h6, p, hp1, hp2, hp3⟩ := h
    refine ⟨h1, ?_, ⟨dd, ?_, ?_⟩, ?_, ?_, ?_, p, ?_, ?_,
      ih p hg (fun c2 l2 hm => hstash c2 l2 (List.mem_cons_of_mem _ hm)) hlev
        (fun c2 l2 hm => hfr c2 l2 (List.mem_cons_of_mem _ hm)) hp3⟩
    · rw [hg.nIsDep]; exact h2
    · rw [hg.nDeps]; exact hdd1
    · rw [hstash c l (List.mem_cons_self _ _) dd hdd1]; exact hdd2
    · rw [hg.lSub]; exact h4
    · exact le_trans h5 (hlev c)
    · intro hn
      rw [hg.nHasNotify] at hn
      obtain ⟨ha, hb⟩ := hfr c l (List.mem_cons_self _ _) hn
      obtain ⟨hq1, hq2⟩ := h6 hn
      exact ⟨ha, hb.trans hq2⟩
    · rw [hg.lDep]; exact hp1
    · rw [hg.lNextSub]
      exact cursorOk_of_graphEq hg hp2


theorem stackOk_mem_level (s : System) (d0 : Nat) (Q : List Nat) :
    ∀ (st : List (Nat × Nat)) (dep : Nat), stackOk s d0 Q st dep →
    ∀ c l, (c, l) ∈ st →
    DirtyLevels.MaybeDirty ≤ (s.nodes c).versionOrDirtyLevel := by
  intro st
  induction st with
  | nil => intro dep _ c l hm; exact absurd hm (List.not_mem_nil _)
  | cons f rest ih =>
    rcases f with ⟨c0, l0⟩
    intro dep h c l hm
    obtain ⟨h1, h2, h3, h4, h5, h6, p, hp1, hp2, hp3⟩ := h
    rcases List.mem_cons.mp hm with hm | hm
    · cases hm; exact h5
    · exact ih p hp3 c l hm

theorem stackOk_mem_fresh (s : System) (d0 : Nat) (Q : List Nat) :
    ∀ (st : List (Nat × Nat)) (dep : Nat), stackOk s d0 Q st dep →
    ∀ c l, (c, l) ∈ st → (s.nodes c).hasNotify = true →
    c ∉ Q ∧ (s.nodes c).nextNotify = none := by
  intro st
  induction st with
  | nil => intro dep _ c l hm; exact absurd hm (List.not_mem_nil _)
  | cons f rest ih =>
    rcases f with ⟨c0, l0⟩
    intro dep h c l hm hn
    obtain ⟨h1, h2, h3, h4, h5, h6, p, hp1, hp2, hp3⟩ := h
    rcases List.mem_cons.mp hm with hm | hm
    · cases hm; exact h6 hn
    · exact ih p hp3 c l hm hn

theorem enqueue_preserves_nextNotify (s : System) (e : Nat) (Q : List Nat)
    (hq : QueueInv s Q) (n : Nat) (hn : n ∉ Q) :
    ((Dependency.enqueueEffect s e).nodes n).nextNotify
      = (s.nodes n).nextNotify := by
  unfold Dependency.enqueueEffect
  rcases hqt : s.queuedEffectsTail with _ | t
  · rfl
  · have htQ : Q.getLast? = some t := hq.2.1.symm.trans hqt
    have htmem : t ∈ Q := List.mem_of_mem_getLast? (Option.mem_def.mpr htQ)
    have hnt : n ≠ t := fun hc => hn (hc ▸ htmem)
    show ((s.setNode t { s.nodes t with
      nextNotify := some e }).nodes n).nextNotify = (s.nodes n).nextNotify
    simp only [nodes_setNode, if_neg hnt]

theorem links_enqueueEffect (s : System) (e : Nat) (j : Nat) :
    (Dependency.enqueueEffect s e).links j = s.links j := by
  unfold Dependency.enqueueEffect
  rcases hqt : s.queuedEffectsTail with _ | t
  · rfl
  · rfl

theorem propagateLoop_master :
    ∀ fuel (s : System) (d0 : Nat) (st : List (Nat × Nat)) (dep : Nat)
      (link : Option Nat) (dirtyLevel depth : Int)
      (vlog : List (Nat × Int × Int)) (elog : List Nat) (Q : List Nat)
      (s' : System) (vlog' : List (Nat × Int × Int)) (elog' : List Nat),
    Dependency.propagateLoop fuel s dep link dirtyLevel depth vlog elog
      = some (s', vlog', elog') →
    WalkInv s d0 st dep link dirtyLevel depth Q →
    ∃ Δv Δe, vlog' = vlog ++ Δv ∧ elog' = elog ++ Δe ∧
      QueueInv s' (Q ++ Δe) ∧
      StashClean s' ∧
      (∀ cl ∈ st, (s.nodes cl.1).hasNotify = true → cl.1 ∈ Δe) ∧
      (∀ x ∈ Δv,
        (x.2.1 = 0 → DirtyLevels.Dirty ≤ (s'.nodes x.1).versionOrDirtyLevel) ∧
        (0 < x.2.1 →
          DirtyLevels.MaybeDirty ≤ (s'.nodes x.1).versionOrDirtyLevel)) ∧
      (∀ x ∈ Δv, x.2.2 = DirtyLevels.NotDirty →
        (s.nodes x.1).hasNotify = true → x.1 ∈ Δe) ∧
      (∀ n, (s.nodes n).versionOrDirtyLevel = DirtyLevels.NotDirty →
        (∃ d p, (n, d, p) ∈ Δv) →
        ∃ d, (n, d, (DirtyLevels.NotDirty : Int)) ∈ Δv) := by
  intro fuel
  induction fuel with
  | zero =>
    intro s d0 st dep link dirtyLevel depth vlog elog Q s' vlog' elog' h _
    exact absurd h Option.noConfusion
  | succ fuel ih =>
    intro s d0 st dep link dirtyLevel depth vlog elog Q s' vlog' elog' h hinv
    obtain ⟨hstk, hoth, hnodup, hdepth, hdl0, hdl1, hdl2, hcur, hswf, hinj,
      hqinv⟩ := hinv
    unfold Dependency.propagateLoop at h
    simp only [] at h
    rcases link with _ | l
    · -- pop or break
      simp only [] at h
      rcases hdd : (s.nodes dep).deps with _ | dd <;> rw [hdd] at h <;>
        (try simp only [] at h)
      · -- break: dep has no dependency list
        cases h
        cases st with
        | cons f rest =>
          rcases f with ⟨c0, l0⟩
          obtain ⟨h1, -, ⟨dd0, hdd0, -⟩, -⟩ := hstk
          rw [h1] at hdd
          exact absurd (hdd0.symm.trans hdd) Option.noConfusion
        | nil =>
          refine ⟨[], [], by simp, by simp, by simpa using hqinv, ?_, ?_,
            by simp, by simp, ?_⟩
          · intro n dd2 hdd2
            exact hoth n (by simp) dd2 hdd2
          · intro cl hm
            exact absurd hm (List.not_mem_nil _)
          · intro n _ hex
            obtain ⟨d, p, hm⟩ := hex
            exact absurd hm (List.not_mem_nil _)
      · rcases hpl : (s.links dd).prevPropagateOrNextReleased with _ | pl <;>
          rw [hpl] at h <;> (try simp only [] at h)
        · -- break: clear stash
          cases h
          cases st with
          | cons f rest =>
            rcases f with ⟨c0, l0⟩
            obtain ⟨h1, -, ⟨dd0, hdd0, hstash0⟩, -⟩ := hstk
            rw [h1] at hdd
            have : dd0 = dd := Option.some.inj (hdd0.symm.trans hdd)
            rw [this] at hstash0
            exact absurd (hstash0.symm.trans hpl) Option.noConfusion
          | nil =>
            refine ⟨[], [], by simp, by simp, by simpa using hqinv, ?_, ?_,
              by simp, by simp, ?_⟩
            · intro n dd2 hdd2
              exact hoth n (by simp) dd2 hdd2
            · intro cl hm
              exact absurd hm (List.not_mem_nil _)
            · intro n _ hex
              obtain ⟨d, p, hm⟩ := hex
              exact absurd hm (List.not_mem_nil _)
        · -- pop
          set s1 := s.setLink dd
            { s.links dd with prevPropagateOrNextReleased := none } with hs1
          rcases hpd : (s1.links pl).dep with _ | pdep <;> rw [hpd] at h <;>
            (try simp only [] at h)
          · exact absurd h Option.noConfusion
          · rcases hps : (s1.links pl).sub with _ | prevSub <;>
              rw [hps] at h <;> (try simp only [] at h)
            · exact absurd h Option.noConfusion
            · cases st with
              | nil =>
                exfalso
                have hcl := hoth dep (by simp) dd hdd
                exact Option.noConfusion (hcl.symm.trans hpl)
              | cons f rest =>
                rcases f with ⟨c0, l0⟩
                obtain ⟨h1, hcIsDep, ⟨dd0, hdd0, hstash0⟩, hlsub, hclev,
                  hcfresh, p, hpdep, hpcur, hprest⟩ := hstk
                rw [h1] at hdd
                have hdd0e : dd0 = dd := Option.some.inj (hdd0.symm.trans hdd)
                rw [hdd0e] at hdd0 hstash0
                have hple : pl = l0 :=
                  (Option.some.inj (hstash0.symm.trans hpl)).symm
                rw [hple] at hpd hps h
                have hg1 : GraphEq s s1 := by
                  rw [hs1]
                  exact graphEq_setLink_stash s dd none
                have hpdepe : pdep = p := by
                  have h2 : (s.links l0).dep = some pdep :=
                    (hg1.lDep l0).symm.trans hpd
                  exact Option.some.inj (h2.symm.trans hpdep)
                rw [hpdepe] at h
                have hpse : prevSub = c0 := by
                  have h2 : (s.links l0).sub = some prevSub :=
                    (hg1.lSub l0).symm.trans hps
                  exact Option.some.inj (h2.symm.trans hlsub)
                rw [hpse] at h
                have hn1 : s1.nodes = s.nodes := by
                  rw [hs1]
                  exact nodes_setLink s dd _
                rw [hn1] at h
                rw [hg1.lNextSub l0] at h
                set dl1 := (if depth - 1 = 0 then DirtyLevels.Dirty
                  else dirtyLevel) with hdl1v
                have hq1 : QueueInv s1 Q := by
                  rw [hs1]
                  exact queueInv_setLink s dd _ Q hqinv
                simp only [List.map_cons] at hnodup
                have hnd2 : (rest.map Prod.fst).Nodup :=
                  (List.nodup_cons.mp hnodup).2
                have hc0nin : c0 ∉ rest.map Prod.fst :=
                  (List.nodup_cons.mp hnodup).1
                have hdep2 : depth - 1 = (rest.length : Int) := by
                  simp only [List.length_cons] at hdepth
                  push_cast at hdepth ⊢
                  omega
                have hdl02 : rest = [] → dl1 = DirtyLevels.Dirty := by
                  intro h0
                  have hz : depth - 1 = 0 := by
                    rw [h0] at hdep2
                    simpa using hdep2
                  rw [hdl1v, if_pos hz]
                have hdl12 : DirtyLevels.MaybeDirty ≤ dl1 := by
                  rw [hdl1v]
                  split
                  · decide
                  · exact hdl1
                have hdl22 : dl1 ≤ DirtyLevels.Dirty := by
                  rw [hdl1v]
                  split
                  · exact le_refl _
                  · exact hdl2
                by_cases hN : (s.nodes c0).hasNotify = true
                · rw [if_pos hN, if_pos hN] at h
                  obtain ⟨hc0Q, hc0nn⟩ := hcfresh hN
                  have hg2 : GraphEq s (Dependency.enqueueEffect s1 c0) :=
                    graphEq_trans hg1 (graphEq_enqueueEffect s1 c0)
                  have hclev0 : (s1.nodes c0).versionOrDirtyLevel
                      ≠ DirtyLevels.NotDirty := by
                    rw [hn1]
                    simp only [DirtyLevels.MaybeDirty] at hclev
                    simp only [DirtyLevels.NotDirty]
                    omega
                  have hq2 : QueueInv (Dependency.enqueueEffect s1 c0)
                      (Q ++ [c0]) :=
                    queueInv_enqueue s1 c0 Q hq1 hclev0 hc0Q hc0nn
                  have hstash2 : ∀ c2 l2 : Nat, (c2, l2) ∈ rest → ∀ dd2,
                      (s.nodes c2).deps = some dd2 →
                      ((Dependency.enqueueEffect s1 c0).links
                        dd2).prevPropagateOrNextReleased
                      = (s.links dd2).prevPropagateOrNextReleased := by
                    intro c2 l2 hm dd2 hdd2
                    have hne : dd2 ≠ dd := by
                      intro hc
                      subst hc
                      have hc2 : c2 = c0 := hinj c2 c0 dd2 hdd2 hdd0
                      have hcm : c2 ∈ rest.map Prod.fst :=
                        List.mem_map_of_mem Prod.fst hm
                      rw [hc2] at hcm
                      exact hc0nin hcm
                    rw [links_enqueueEffect, hs1, links_setLink, if_neg hne]
                  have hlevp : ∀ n, (s.nodes n).versionOrDirtyLevel
                      ≤ ((Dependency.enqueueEffect s1
                          c0).nodes n).versionOrDirtyLevel := by
                    intro n
                    have h2 := level_enqueueEffect s1 c0 n
                    rw [hn1] at h2
                    exact le_of_eq h2.symm
                  have hfr2 : ∀ c2 l2 : Nat, (c2, l2) ∈ rest →
                      (s.nodes c2).hasNotify = true → c2 ∉ Q ++ [c0] ∧
                      ((Dependency.enqueueEffect s1 c0).nodes c2).nextNotify
                        = (s.nodes c2).nextNotify := by
                    intro c2 l2 hm hn2
                    obtain ⟨ha, hb⟩ :=
                      stackOk_mem_fresh s d0 Q rest p hprest c2 l2 hm hn2
                    have hnec : c2 ≠ c0 := by
                      intro hc
                      apply hc0nin
                      rw [← hc]
                      exact List.mem_map_of_mem Prod.fst hm
                    refine ⟨?_, ?_⟩
                    · simp only [List.mem_append, List.mem_singleton]
                      rintro (hc | hc)
                      · exact ha hc
                      · exact hnec hc
                    · have h2 := enqueue_preserves_nextNotify s1 c0 Q hq1 c2 ha
                      rw [h2, hn1]
                  have hstk2 : stackOk (Dependency.enqueueEffect s1 c0) d0
                      (Q ++ [c0]) rest p :=
                    stackOk_adapt s _ d0 Q (Q ++ [c0]) rest p hg2 hstash2
                      hlevp hfr2 hprest
                  have hoth2 : othersClean (Dependency.enqueueEffect s1 c0)
                      rest := by
                    intro n hnm dd2 hdd2
                    rw [hg2.nDeps n] at hdd2
                    rw [links_enqueueEffect, hs1, links_setLink]
                    by_cases hdd2d : dd2 = dd
                    · rw [if_pos hdd2d]
                    · rw [if_neg hdd2d]
                      have hnc0 : n ≠ c0 := by
                        intro hc
                        subst hc
                        exact hdd2d (Option.some.inj (hdd2.symm.trans hdd0))
                      refine hoth n ?_ dd2 hdd2
                      simp only [List.map_cons, List.mem_cons]
                      push_neg
                      exact ⟨hnc0, hnm⟩
                  have hcur2 : CursorOk (Dependency.enqueueEffect s1 c0) p
                      ((s.links l0).nextSub) :=
                    cursorOk_of_graphEq hg2 hpcur
                  have hswf2 : SubsWF (Dependency.enqueueEffect s1 c0) :=
                    subsWF_of_graphEq hg2 hswf
                  have hinj2 : DepsHeadInj (Dependency.enqueueEffect s1 c0) :=
                    depsHeadInj_of_graphEq hg2 hinj
                  obtain ⟨Δv2, Δe2, hv, he, hq3, hsc3, hF3, hA3, hB3, hC3⟩ :=
                    ih (Dependency.enqueueEffect s1 c0) d0 rest p
                      ((s.links l0).nextSub) dl1 (depth - 1) vlog
                      (elog ++ [c0]) (Q ++ [c0]) s' vlog' elog' h
                      ⟨hstk2, hoth2, hnd2, hdep2, hdl02, hdl12, hdl22, hcur2,
                        hswf2, hinj2, hq2⟩
                  refine ⟨Δv2, c0 :: Δe2, hv, ?_, ?_, hsc3, ?_, hA3, ?_, ?_⟩
                  · rw [he]
                    simp
                  · have hEq : Q ++ c0 :: Δe2 = (Q ++ [c0]) ++ Δe2 := by simp
                    rw [hEq]
                    exact hq3
                  · intro cl hm hn
                    rcases List.mem_cons.mp hm with hmeq | hm2
                    · rw [hmeq]
                      exact List.mem_cons_self _ _
                    · refine List.mem_cons_of_mem _ (hF3 cl hm2 ?_)
                      rw [hg2.nHasNotify cl.1]
                      exact hn
                  · intro x hx h0 hn
                    refine List.mem_cons_of_mem _ (hB3 x hx h0 ?_)
                    rw [hg2.nHasNotify x.1]
                    exact hn
                  · intro n hlv hex
                    refine hC3 n ?_ hex
                    have h2 := level_enqueueEffect s1 c0 n
                    rw [hn1] at h2
                    rw [h2]
                    exact hlv
                · rw [if_neg hN, if_neg hN] at h
                  have hlevp : ∀ n, (s.nodes n).versionOrDirtyLevel
                      ≤ (s1.nodes n).versionOrDirtyLevel := by
                    intro n
                    exact le_of_eq (by rw [hn1])
                  have hstash2 : ∀ c2 l2 : Nat, (c2, l2) ∈ rest → ∀ dd2,
                      (s.nodes c2).deps = some dd2 →
                      (s1.links dd2).prevPropagateOrNextReleased
                      = (s.links dd2).prevPropagateOrNextReleased := by
                    intro c2 l2 hm dd2 hdd2
                    have hne : dd2 ≠ dd := by
                      intro hc
                      subst hc
                      have hc2 : c2 = c0 := hinj c2 c0 dd2 hdd2 hdd0
                      have hcm : c2 ∈ rest.map Prod.fst :=
                        List.mem_map_of_mem Prod.fst hm
                      rw [hc2] at hcm
                      exact hc0nin hcm
                    rw [hs1, links_setLink, if_neg hne]
                  have hfr2 : ∀ c2 l2 : Nat, (c2, l2) ∈ rest →
                      (s.nodes c2).hasNotify = true → c2 ∉ Q ∧
                      (s1.nodes c2).nextNotify = (s.nodes c2).nextNotify := by
                    intro c2 l2 hm hn2
                    obtain ⟨ha, hb⟩ :=
                      stackOk_mem_fresh s d0 Q rest p hprest c2 l2 hm hn2
                    exact ⟨ha, by rw [hn1]⟩
                  have hstk2 : stackOk s1 d0 Q rest p :=
                    stackOk_adapt s s1 d0 Q Q rest p hg1 hstash2 hlevp hfr2
                      hprest
                  have hoth2 : othersClean s1 rest := by
                    intro n hnm dd2 hdd2
                    rw [hg1.nDeps n] at hdd2
                    rw [hs1, links_setLink]
                    by_cases hdd2d : dd2 = dd
                    · rw [if_pos hdd2d]
                    · rw [if_neg hdd2d]
                      have hnc0 : n ≠ c0 := by
                        intro hc
                        subst hc
                        exact hdd2d (Option.some.inj (hdd2.symm.trans hdd0))
                      refine hoth n ?_ dd2 hdd2
                      simp only [List.map_cons, List.mem_cons]
                      push_neg
                      exact ⟨hnc0, hnm⟩
                  have hcur2 : CursorOk s1 p ((s.links l0).nextSub) :=
                    cursorOk_of_graphEq hg1 hpcur
                  have hswf2 : SubsWF s1 := subsWF_of_graphEq hg1 hswf
                  have hinj2 : DepsHeadInj s1 := depsHeadInj_of_graphEq hg1 hinj
                  obtain ⟨Δv2, Δe2, hv, he, hq3, hsc3, hF3, hA3, hB3, hC3⟩ :=
                    ih s1 d0 rest p ((s.links l0).nextSub) dl1 (depth - 1)
                      vlog elog Q s' vlog' elog' h
                      ⟨hstk2, hoth2, hnd2, hdep2, hdl02, hdl12, hdl22, hcur2,
                        hswf2, hinj2, hq1⟩
                  refine ⟨Δv2, Δe2, hv, he, hq3, hsc3, ?_, hA3, ?_, ?_⟩
                  · intro cl hm hn
                    rcases List.mem_cons.mp hm with hmeq | hm2
                    · exfalso
                      rw [hmeq] at hn
                      exact hN hn
                    · refine hF3 cl hm2 ?_
                      rw [hg1.nHasNotify cl.1]
                      exact hn
                  · intro x hx h0 hn
                    refine hB3 x hx h0 ?_
                    rw [hg1.nHasNotify x.1]
                    exact hn
                  · intro n hlv hex
                    refine hC3 n ?_ hex
                    rw [hn1]
                    exact hlv
    · -- visit one link
      simp only [] at h
      rcases hsl : (s.links l).sub with _ | subId <;> rw [hsl] at h <;>
        (try simp only [] at h)
      · exact absurd h Option.noConfusion
      · set smid := (if (s.nodes subId).versionOrDirtyLevel < dirtyLevel then
            s.setNode subId
              { s.nodes subId with versionOrDirtyLevel := dirtyLevel }
          else s) with hsmid
        have hldep : (s.links l).dep = some dep := hcur l (InSubChain.head l)
        have hcurnext : CursorOk s dep ((s.links l).nextSub) :=
          fun j hj => hcur j (InSubChain.tail l j hj)
        have hdlne : dirtyLevel ≠ DirtyLevels.NotDirty := by
          have h9 := hdl1
          simp only [DirtyLevels.MaybeDirty] at h9
          simp only [DirtyLevels.NotDirty]
          omega
        have hnnAs : ∀ m, (smid.nodes m).nextNotify = (s.nodes m).nextNotify := by
          intro m
          rw [hsmid]
          split
          · simp only [nodes_setNode]
            split <;> simp_all
          · rfl
        have hsml : smid.links = s.links := by
          rw [hsmid]
          split
          · exact links_setNode s subId _
          · rfl
        have hlevm : ∀ m, (s.nodes m).versionOrDirtyLevel
            ≤ (smid.nodes m).versionOrDirtyLevel := by
          intro m
          rw [hsmid]
          split
          · next hlt =>
            simp only [nodes_setNode]
            split
            · next hm => subst hm; exact le_of_lt hlt
            · exact le_refl _
          · exact le_refl _
        have hgsm : GraphEq s smid := by
          rw [hsmid]
          split
          · exact graphEq_setNode_level s subId dirtyLevel
          · exact graphEq_refl s
        have hqsm : QueueInv smid Q := by
          rw [hsmid]
          split
          · exact queueInv_level_raise s subId dirtyLevel Q hdlne hqinv
          · exact hqinv
        split at h
        · -- prior level NotDirty
          split at h
          · -- descend into a derived subscriber
            rename_i hlvl0 hisdep
            rcases hdd : (smid.nodes subId).deps with _ | dd <;>
              rw [hdd] at h <;> (try simp only [] at h)
            · exact absurd h Option.noConfusion
            · set s2 := smid.setLink dd
                { smid.links dd with prevPropagateOrNextReleased := some l }
                with hs2
              rw [hlvl0] at h
              obtain ⟨hsQ, hsnn⟩ := hqinv.2.2.2 subId hlvl0
              have hguard : (s.nodes subId).versionOrDirtyLevel
                  < dirtyLevel := by
                rw [hlvl0]
                have h9 := hdl1
                simp only [DirtyLevels.MaybeDirty] at h9
                simp only [DirtyLevels.NotDirty]
                omega
              have hsmid2 : smid = s.setNode subId
                  { s.nodes subId with versionOrDirtyLevel := dirtyLevel } := by
                rw [hsmid, if_pos hguard]
              have hlvlsm : (smid.nodes subId).versionOrDirtyLevel
                  = dirtyLevel := by
                rw [hsmid2]
                simp
              have hnodes2 : s2.nodes = smid.nodes := by
                rw [hs2]
                exact nodes_setLink smid dd _
              have hgs2 : GraphEq s s2 := by
                rw [hs2]
                exact graphEq_trans hgsm (graphEq_setLink_stash smid dd (some l))
              have hsdeps : (s.nodes subId).deps = some dd := by
                rw [← hgsm.nDeps subId]
                exact hdd
              have hsubnin : subId ∉ st.map Prod.fst := by
                intro hc
                obtain ⟨x, hm2, hfst⟩ := List.mem_map.mp hc
                obtain ⟨c2, l2⟩ := x
                have hlev2 := stackOk_mem_level s d0 Q st dep hstk c2 l2 hm2
                have hc2 : c2 = subId := hfst
                rw [hc2, hlvl0] at hlev2
                exact absurd hlev2 (by decide)
              have hstashD : ∀ c2 l2 : Nat, (c2, l2) ∈ st → ∀ dd2,
                  (s.nodes c2).deps = some dd2 →
                  (s2.links dd2).prevPropagateOrNextReleased
                  = (s.links dd2).prevPropagateOrNextReleased := by
                intro c2 l2 hm dd2 hdd2
                have hne : dd2 ≠ dd := by
                  intro hc
                  subst hc
                  have hc2 : c2 = subId := hinj c2 subId dd2 hdd2 hsdeps
                  apply hsubnin
                  rw [← hc2]
                  exact List.mem_map_of_mem Prod.fst hm
                rw [hs2, links_setLink, if_neg hne, hsml]
              have hlevD : ∀ n, (s.nodes n).versionOrDirtyLevel
                  ≤ (s2.nodes n).versionOrDirtyLevel := by
                intro n
                rw [hnodes2]
                exact hlevm n
              have hfrD : ∀ c2 l2 : Nat, (c2, l2) ∈ st →
                  (s.nodes c2).hasNotify = true → c2 ∉ Q ∧
                  (s2.nodes c2).nextNotify = (s.nodes c2).nextNotify := by
                intro c2 l2 hm hn2
                refine ⟨(stackOk_mem_fresh s d0 Q st dep hstk c2 l2 hm hn2).1,
                  ?_⟩
                rw [hnodes2, hnnAs c2]
              have hstkD : stackOk s2 d0 Q st dep :=
                stackOk_adapt s s2 d0 Q Q st dep hgs2 hstashD hlevD hfrD hstk
              have hswf2 : SubsWF s2 := subsWF_of_graphEq hgs2 hswf
              have hstk2 : stackOk s2 d0 Q ((subId, l) :: st) subId := by
                refine ⟨rfl, ?_, ⟨dd, ?_, ?_⟩, ?_, ?_, ?_, dep, ?_, ?_, hstkD⟩
                · rw [hnodes2]
                  exact hisdep
                · rw [hnodes2]
                  exact hdd
                · rw [hs2]
                  simp
                · rw [hgs2.lSub l]
                  exact hsl
                · rw [hnodes2, hlvlsm]
                  exact hdl1
                · intro hn2
                  refine ⟨hsQ, ?_⟩
                  rw [hnodes2, hnnAs subId]
                  exact hsnn
                · rw [hgs2.lDep l]
                  exact hldep
                · rw [hgs2.lNextSub l]
                  exact cursorOk_of_graphEq hgs2 hcurnext
              have hoth2 : othersClean s2 ((subId, l) :: st) := by
                intro n hnm dd2 hdd2
                simp only [List.map_cons, List.mem_cons] at hnm
                push_neg at hnm
                rw [hgs2.nDeps n] at hdd2
                have hne : dd2 ≠ dd := by
                  intro hc
                  subst hc
                  exact hnm.1 (hinj n subId dd2 hdd2 hsdeps)
                rw [hs2, links_setLink, if_neg hne, hsml]
                exact hoth n hnm.2 dd2 hdd2
              have hnd2 : (((subId, l) :: st).map Prod.fst).Nodup := by
                simp only [List.map_cons]
                exact List.nodup_cons.mpr ⟨hsubnin, hnodup⟩
              have hdep2 : depth + 1 = (((subId, l) :: st).length : Int) := by
                simp only [List.length_cons]
                push_cast
                omega
              have hinj2 : DepsHeadInj s2 := depsHeadInj_of_graphEq hgs2 hinj
              have hq2 : QueueInv s2 Q := by
                rw [hs2]
                exact queueInv_setLink smid dd _ Q hqsm
              obtain ⟨Δv2, Δe2, hv, he, hq3, hsc3, hF3, hA3, hB3, hC3⟩ :=
                ih s2 d0 ((subId, l) :: st) subId ((s2.nodes subId).subs)
                  DirtyLevels.MaybeDirty (depth + 1)
                  (vlog ++ [(subId, depth, DirtyLevels.NotDirty)]) elog Q
                  s' vlog' elog' h
                  ⟨hstk2, hoth2, hnd2, hdep2,
                    fun hc => absurd hc (List.cons_ne_nil _ _),
                    le_refl _, by decide, hswf2 subId, hswf2, hinj2, hq2⟩
              have hmono := propagateLoop_mono fuel s2 subId
                ((s2.nodes subId).subs) DirtyLevels.MaybeDirty (depth + 1)
                _ elog s' vlog' elog' h
              have hgeD : dirtyLevel
                  ≤ (s2.nodes subId).versionOrDirtyLevel := by
                rw [hnodes2]
                exact le_of_eq hlvlsm.symm
              refine ⟨(subId, depth, DirtyLevels.NotDirty) :: Δv2, Δe2,
                ?_, he, hq3, hsc3, ?_, ?_, ?_, ?_⟩
              · rw [hv]
                simp
              · intro cl hm hn
                refine hF3 cl (List.mem_cons_of_mem _ hm) ?_
                rw [hgs2.nHasNotify cl.1]
                exact hn
              · intro x hx
                rcases List.mem_cons.mp hx with hme | hm2
                · rw [hme]
                  refine ⟨fun hz => ?_, fun hpos => ?_⟩
                  · have hz2 : depth = 0 := hz
                    have hlen0 : st.length = 0 := by
                      rw [hz2] at hdepth
                      exact_mod_cast hdepth.symm
                    have hst0 : st = [] := List.length_eq_zero.mp hlen0
                    have hdle : dirtyLevel = DirtyLevels.Dirty := hdl0 hst0
                    refine le_trans ?_ (hmono subId)
                    rw [← hdle]
                    exact hgeD
                  · refine le_trans hdl1 (le_trans hgeD (hmono subId))
                · exact hA3 x hm2
              · intro x hx h0 hn
                rcases List.mem_cons.mp hx with hme | hm2
                · have hn2 : (s2.nodes subId).hasNotify = true := by
                    rw [hgs2.nHasNotify subId]
                    rw [hme] at hn
                    exact hn
                  have hmem := hF3 (subId, l) (List.mem_cons_self _ _) hn2
                  rw [hme]
                  exact hmem
                · refine hB3 x hm2 h0 ?_
                  rw [hgs2.nHasNotify x.1]
                  exact hn
              · intro n hlv hex
                by_cases hns : n = subId
                · subst hns
                  exact ⟨depth, List.mem_cons_self _ _⟩
                · obtain ⟨d, p2, hm⟩ := hex
                  rcases List.mem_cons.mp hm with hme | hm2
                  · exact absurd (congrArg Prod.fst hme) hns
                  · have hlv2 : (s2.nodes n).versionOrDirtyLevel
                        = DirtyLevels.NotDirty := by
                      rw [hnodes2, hsmid2]
                      simp only [nodes_setNode, if_neg hns]
                      exact hlv
                    obtain ⟨d2, hd2⟩ := hC3 n hlv2 ⟨d, p2, hm2⟩
                    exact ⟨d2, List.mem_cons_of_mem _ hd2⟩
          · split at h
            · -- enqueue a plain effect
              rename_i hlvl0 hnisdep hN
              rw [hsml] at h
              rw [hlvl0] at h
              obtain ⟨hsQ, hsnn⟩ := hqinv.2.2.2 subId hlvl0
              have hguard : (s.nodes subId).versionOrDirtyLevel
                  < dirtyLevel := by
                rw [hlvl0]
                have h9 := hdl1
                simp only [DirtyLevels.MaybeDirty] at h9
                simp only [DirtyLevels.NotDirty]
                omega
              have hsmid2 : smid = s.setNode subId
                  { s.nodes subId with versionOrDirtyLevel := dirtyLevel } := by
                rw [hsmid, if_pos hguard]
              have hlvlsm : (smid.nodes subId).versionOrDirtyLevel
                  = dirtyLevel := by
                rw [hsmid2]
                simp
              have hsubnin : subId ∉ st.map Prod.fst := by
                intro hc
                obtain ⟨x, hm2, hfst⟩ := List.mem_map.mp hc
                obtain ⟨c2, l2⟩ := x
                have hlev2 := stackOk_mem_level s d0 Q st dep hstk c2 l2 hm2
                have hc2 : c2 = subId := hfst
                rw [hc2, hlvl0] at hlev2
                exact absurd hlev2 (by decide)
              have hg2 : GraphEq s (Dependency.enqueueEffect smid subId) :=
                graphEq_trans hgsm (graphEq_enqueueEffect smid subId)
              have hsmn : (smid.nodes subId).versionOrDirtyLevel
                  ≠ DirtyLevels.NotDirty := by
                rw [hlvlsm]
                exact hdlne
              have hsmnn : (smid.nodes subId).nextNotify = none := by
                rw [hnnAs subId]
                exact hsnn
              have hq2 : QueueInv (Dependency.enqueueEffect smid subId)
                  (Q ++ [subId]) :=
                queueInv_enqueue smid subId Q hqsm hsmn hsQ hsmnn
              have hstash2 : ∀ c2 l2 : Nat, (c2, l2) ∈ st → ∀ dd2,
                  (s.nodes c2).deps = some dd2 →
                  ((Dependency.enqueueEffect smid
                    subId).links dd2).prevPropagateOrNextReleased
                  = (s.links dd2).prevPropagateOrNextReleased := by
                intro c2 l2 hm dd2 hdd2
                rw [links_enqueueEffect, hsml]
              have hlevp : ∀ n, (s.nodes n).versionOrDirtyLevel
                  ≤ ((Dependency.enqueueEffect smid
                      subId).nodes n).versionOrDirtyLevel := by
                intro n
                rw [level_enqueueEffect]
                exact hlevm n
              have hfr2 : ∀ c2 l2 : Nat, (c2, l2) ∈ st →
                  (s.nodes c2).hasNotify = true → c2 ∉ Q ++ [subId] ∧
                  ((Dependency.enqueueEffect smid subId).nodes c2).nextNotify
                  = (s.nodes c2).nextNotify := by
                intro c2 l2 hm hn2
                obtain ⟨ha, hb⟩ :=
                  stackOk_mem_fresh s d0 Q st dep hstk c2 l2 hm hn2
                have hnec : c2 ≠ subId := by
                  intro hc
                  apply hsubnin
                  rw [← hc]
                  exact List.mem_map_of_mem Prod.fst hm
                refine ⟨?_, ?_⟩
                · simp only [List.mem_append, List.mem_singleton]
                  rintro (hc | hc)
                  · exact ha hc
                  · exact hnec hc
                · have h2 := enqueue_preserves_nextNotify smid subId Q hqsm c2 ha
                  rw [h2, hnnAs c2]
              have hstk2 : stackOk (Dependency.enqueueEffect smid subId) d0
                  (Q ++ [subId]) st dep :=
                stackOk_adapt s _ d0 Q (Q ++ [subId]) st dep hg2 hstash2
                  hlevp hfr2 hstk
              have hoth2 : othersClean (Dependency.enqueueEffect smid subId)
                  st := by
                intro n hnm dd2 hdd2
                rw [hg2.nDeps n] at hdd2
                rw [links_enqueueEffect, hsml]
                exact hoth n hnm dd2 hdd2
              have hcur2 : CursorOk (Dependency.enqueueEffect smid subId) dep
                  ((s.links l).nextSub) :=
                cursorOk_of_graphEq hg2 hcurnext
              have hswf2 : SubsWF (Dependency.enqueueEffect smid subId) :=
                subsWF_of_graphEq hg2 hswf
              have hinj2 : DepsHeadInj (Dependency.enqueueEffect smid subId) :=
                depsHeadInj_of_graphEq hg2 hinj
              obtain ⟨Δv2, Δe2, hv, he, hq3, hsc3, hF3, hA3, hB3, hC3⟩ :=
                ih (Dependency.enqueueEffect smid subId) d0 st dep
                  ((s.links l).nextSub) dirtyLevel depth
                  (vlog ++ [(subId, depth, DirtyLevels.NotDirty)])
                  (elog ++ [subId]) (Q ++ [subId]) s' vlog' elog' h
                  ⟨hstk2, hoth2, hnodup, hdepth, hdl0, hdl1, hdl2, hcur2,
                    hswf2, hinj2, hq2⟩
              have hmono := propagateLoop_mono fuel
                (Dependency.enqueueEffect smid subId) dep
                ((s.links l).nextSub) dirtyLevel depth _ _ s' vlog' elog' h
              have hge2 : dirtyLevel ≤ ((Dependency.enqueueEffect smid
                  subId).nodes subId).versionOrDirtyLevel := by
                rw [level_enqueueEffect]
                exact le_of_eq hlvlsm.symm
              refine ⟨(subId, depth, DirtyLevels.NotDirty) :: Δv2,
                subId :: Δe2, ?_, ?_, ?_, hsc3, ?_, ?_, ?_, ?_⟩
              · rw [hv]
                simp
              · rw [he]
                simp
              · have hEq : Q ++ subId :: Δe2 = (Q ++ [subId]) ++ Δe2 := by
                  simp
                rw [hEq]
                exact hq3
              · intro cl hm hn
                refine List.mem_cons_of_mem _ (hF3 cl hm ?_)
                rw [hg2.nHasNotify cl.1]
                exact hn
              · intro x hx
                rcases List.mem_cons.mp hx with hme | hm2
                · rw [hme]
                  refine ⟨fun hz => ?_, fun hpos => ?_⟩
                  · have hz2 : depth = 0 := hz
                    have hlen0 : st.length = 0 := by
                      rw [hz2] at hdepth
                      exact_mod_cast hdepth.symm
                    have hst0 : st = [] := List.length_eq_zero.mp hlen0
                    have hdle : dirtyLevel = DirtyLevels.Dirty := hdl0 hst0
                    refine le_trans ?_ (hmono subId)
                    rw [← hdle]
                    exact hge2
                  · refine le_trans hdl1 (le_trans hge2 (hmono subId))
                · exact hA3 x hm2
              · intro x hx h0 hn
                rcases List.mem_cons.mp hx with hme | hm2
                · rw [hme]
                  exact List.mem_cons_self _ _
                · refine List.mem_cons_of_mem _ (hB3 x hm2 h0 ?_)
                  rw [hg2.nHasNotify x.1]
                  exact hn
              · intro n hlv hex
                by_cases hns : n = subId
                · subst hns
                  exact ⟨depth, List.mem_cons_self _ _⟩
                · obtain ⟨d, p2, hm⟩ := hex
                  rcases List.mem_cons.mp hm with hme | hm2
                  · exact absurd (congrArg Prod.fst hme) hns
                  · have hlv2 : ((Dependency.enqueueEffect smid
                        subId).nodes n).versionOrDirtyLevel
                        = DirtyLevels.NotDirty := by
                      rw [level_enqueueEffect, hsmid2]
                      simp only [nodes_setNode, if_neg hns]
                      exact hlv
                    obtain ⟨d2, hd2⟩ := hC3 n hlv2 ⟨d, p2, hm2⟩
                    exact ⟨d2, List.mem_cons_of_mem _ hd2⟩
            · -- NotDirty but neither dependency nor effect
              rename_i hlvl0 hnisdep hN
              rw [hsml] at h
              rw [hlvl0] at h
              have hguard : (s.nodes subId).versionOrDirtyLevel
                  < dirtyLevel := by
                rw [hlvl0]
                have h9 := hdl1
                simp only [DirtyLevels.MaybeDirty] at h9
                simp only [DirtyLevels.NotDirty]
                omega
              have hsmid2 : smid = s.setNode subId
                  { s.nodes subId with versionOrDirtyLevel := dirtyLevel } := by
                rw [hsmid, if_pos hguard]
              have hlvlsm : (smid.nodes subId).versionOrDirtyLevel
                  = dirtyLevel := by
                rw [hsmid2]
                simp
              have hstash2 : ∀ c2 l2 : Nat, (c2, l2) ∈ st → ∀ dd2,
                  (s.nodes c2).deps = some dd2 →
                  (smid.links dd2).prevPropagateOrNextReleased
                  = (s.links dd2).prevPropagateOrNextReleased := by
                intro c2 l2 hm dd2 hdd2
                rw [hsml]
              have hfr2 : ∀ c2 l2 : Nat, (c2, l2) ∈ st →
                  (s.nodes c2).hasNotify = true → c2 ∉ Q ∧
                  (smid.nodes c2).nextNotify = (s.nodes c2).nextNotify := by
                intro c2 l2 hm hn2
                exact ⟨(stackOk_mem_fresh s d0 Q st dep hstk c2 l2 hm hn2).1,
                  hnnAs c2⟩
              have hstk2 : stackOk smid d0 Q st dep :=
                stackOk_adapt s smid d0 Q Q st dep hgsm hstash2 hlevm hfr2 hstk
              have hoth2 : othersClean smid st := by
                intro n hnm dd2 hdd2
                rw [hgsm.nDeps n] at hdd2
                rw [hsml]
                exact hoth n hnm dd2 hdd2
              have hcur2 : CursorOk smid dep ((s.links l).nextSub) :=
                cursorOk_of_graphEq hgsm hcurnext
              have hswf2 : SubsWF smid := subsWF_of_graphEq hgsm hswf
              have hinj2 : DepsHeadInj smid := depsHeadInj_of_graphEq hgsm hinj
              obtain ⟨Δv2, Δe2, hv, he, hq3, hsc3, hF3, hA3, hB3, hC3⟩ :=
                ih smid d0 st dep ((s.links l).nextSub) dirtyLevel depth
                  (vlog ++ [(subId, depth, DirtyLevels.NotDirty)]) elog Q
                  s' vlog' elog' h
                  ⟨hstk2, hoth2, hnodup, hdepth, hdl0, hdl1, hdl2, hcur2,
                    hswf2, hinj2, hqsm⟩
              have hmono := propagateLoop_mono fuel smid dep
                ((s.links l).nextSub) dirtyLevel depth _ elog s' vlog' elog' h
              have hge2 : dirtyLevel
                  ≤ (smid.nodes subId).versionOrDirtyLevel :=
                le_of_eq hlvlsm.symm
              refine ⟨(subId, depth, DirtyLevels.NotDirty) :: Δv2, Δe2,
                ?_, he, hq3, hsc3, ?_, ?_, ?_, ?_⟩
              · rw [hv]
                simp
              · intro cl hm hn
                refine hF3 cl hm ?_
                rw [hgsm.nHasNotify cl.1]
                exact hn
              · intro x hx
                rcases List.mem_cons.mp hx with hme | hm2
                · rw [hme]
                  refine ⟨fun hz => ?_, fun hpos => ?_⟩
                  · have hz2 : depth = 0 := hz
                    have hlen0 : st.length = 0 := by
                      rw [hz2] at hdepth
                      exact_mod_cast hdepth.symm
                    have hst0 : st = [] := List.length_eq_zero.mp hlen0
                    have hdle : dirtyLevel = DirtyLevels.Dirty := hdl0 hst0
                    refine le_trans ?_ (hmono subId)
                    rw [← hdle]
                    exact hge2
                  · refine le_trans hdl1 (le_trans hge2 (hmono subId))
                · exact hA3 x hm2
              · intro x hx h0 hn
                rcases List.mem_cons.mp hx with hme | hm2
                · exfalso
                  apply hN
                  rw [hgsm.nHasNotify subId]
                  rw [hme] at hn
                  exact hn
                · refine hB3 x hm2 h0 ?_
                  rw [hgsm.nHasNotify x.1]
                  exact hn
              · intro n hlv hex
                by_cases hns : n = subId
                · subst hns
                  exact ⟨depth, List.mem_cons_self _ _⟩
                · obtain ⟨d, p2, hm⟩ := hex
                  rcases List.mem_cons.mp hm with hme | hm2
                  · exact absurd (congrArg Prod.fst hme) hns
                  · have hlv2 : (smid.nodes n).versionOrDirtyLevel
                        = DirtyLevels.NotDirty := by
                      rw [hsmid2]
                      simp only [nodes_setNode, if_neg hns]
                      exact hlv
                    obtain ⟨d2, hd2⟩ := hC3 n hlv2 ⟨d, p2, hm2⟩
                    exact ⟨d2, List.mem_cons_of_mem _ hd2⟩
        · -- prior level not NotDirty: plain advance
          rename_i hlvl0
          rw [hsml] at h
          have hstash2 : ∀ c2 l2 : Nat, (c2, l2) ∈ st → ∀ dd2,
              (s.nodes c2).deps = some dd2 →
              (smid.links dd2).prevPropagateOrNextReleased
              = (s.links dd2).prevPropagateOrNextReleased := by
            intro c2 l2 hm dd2 hdd2
            rw [hsml]
          have hfr2 : ∀ c2 l2 : Nat, (c2, l2) ∈ st →
              (s.nodes c2).hasNotify = true → c2 ∉ Q ∧
              (smid.nodes c2).nextNotify = (s.nodes c2).nextNotify := by
            intro c2 l2 hm hn2
            exact ⟨(stackOk_mem_fresh s d0 Q st dep hstk c2 l2 hm hn2).1,
              hnnAs c2⟩
          have hstk2 : stackOk smid d0 Q st dep :=
            stackOk_adapt s smid d0 Q Q st dep hgsm hstash2 hlevm hfr2 hstk
          have hoth2 : othersClean smid st := by
            intro n hnm dd2 hdd2
            rw [hgsm.nDeps n] at hdd2
            rw [hsml]
            exact hoth n hnm dd2 hdd2
          have hcur2 : CursorOk smid dep ((s.links l).nextSub) :=
            cursorOk_of_graphEq hgsm hcurnext
          have hswf2 : SubsWF smid := subsWF_of_graphEq hgsm hswf
          have hinj2 : DepsHeadInj smid := depsHeadInj_of_graphEq hgsm hinj
          obtain ⟨Δv2, Δe2, hv, he, hq3, hsc3, hF3, hA3, hB3, hC3⟩ :=
            ih smid d0 st dep ((s.links l).nextSub) dirtyLevel depth
              (vlog ++ [(subId, depth, (s.nodes subId).versionOrDirtyLevel)])
              elog Q s' vlog' elog' h
              ⟨hstk2, hoth2, hnodup, hdepth, hdl0, hdl1, hdl2, hcur2, hswf2,
                hinj2, hqsm⟩
          have hmono := propagateLoop_mono fuel smid dep ((s.links l).nextSub)
            dirtyLevel depth _ elog s' vlog' elog' h
          have hge : dirtyLevel ≤ (smid.nodes subId).versionOrDirtyLevel := by
            rw [hsmid]
            split
            · simp
            · next hnlt => exact le_of_not_lt hnlt
          refine ⟨(subId, depth, (s.nodes subId).versionOrDirtyLevel) :: Δv2,
            Δe2, ?_, he, hq3, hsc3, ?_, ?_, ?_, ?_⟩
          · rw [hv]
            simp
          · intro cl hm hn
            refine hF3 cl hm ?_
            rw [hgsm.nHasNotify cl.1]
            exact hn
          · intro x hx
            rcases List.mem_cons.mp hx with hme | hm2
            · rw [hme]
              refine ⟨fun hz => ?_, fun hpos => ?_⟩
              · have hz2 : depth = 0 := hz
                have hlen0 : st.length = 0 := by
                  rw [hz2] at hdepth
                  exact_mod_cast hdepth.symm
                have hst0 : st = [] := List.length_eq_zero.mp hlen0
                have hdle : dirtyLevel = DirtyLevels.Dirty := hdl0 hst0
                refine le_trans ?_ (hmono subId)
                rw [← hdle]
                exact hge
              · refine le_trans hdl1 (le_trans hge (hmono subId))
            · exact hA3 x hm2
          · intro x hx h0 hn
            rcases List.mem_cons.mp hx with hme | hm2
            · exfalso
              rw [hme] at h0
              exact hlvl0 h0
            · refine hB3 x hm2 h0 ?_
              rw [hgsm.nHasNotify x.1]
              exact hn
          · intro n hlv hex
            by_cases hns : n = subId
            · exfalso
              rw [hns] at hlv
              exact hlvl0 hlv
            · obtain ⟨d, p2, hm⟩ := hex
              rcases List.mem_cons.mp hm with hme | hm2
              · exact absurd (congrArg Prod.fst hme) hns
              · have hlv2 : (smid.nodes n).versionOrDirtyLevel
                    = DirtyLevels.NotDirty := by
                  rw [hsmid]
                  split
                  · simp only [nodes_setNode, if_neg hns]
                    exact hlv
                  · exact hlv
                obtain ⟨d2, hd2⟩ := hC3 n hlv2 ⟨d, p2, hm2⟩
                exact ⟨d2, List.mem_cons_of_mem _ hd2⟩


/-- Spelling out a Subscriber's dependency list: the option points at the
first of the listed links and the nextDep pointers chain through the rest. -/
def DepChain (s : System) : Option Nat → List Nat → Prop
  | none, [] => True
  | some h, l :: rest => h = l ∧ DepChain s ((s.links h).nextDep) rest
  | none, _ :: _ => False
  | some _, [] => False

/-- The trailing notify walk of resolveMaybeDirty terminates along a spelled
out dependency list and leaves the resolved Subscriber's node untouched, as
long as the notify callback only rewrites the notified node itself. -/
theorem notifyLoop_pres (ntf : Nat → System → System)
    (hntfL : ∀ d t, (ntf d t).links = t.links)
    (hntfN : ∀ d t n, n ≠ d → (ntf d t).nodes n = t.nodes n)
    (s : System) (sub : Nat) :
    ∀ (ds dl : List Nat) (fuel : Nat) (t : System) (link : Option Nat),
    DepChain s link ds →
    List.Forall₂ (fun l d => (s.links l).dep = some d) ds dl →
    sub ∉ dl →
    t.links = s.links →
    ds.length ≤ fuel →
    ∃ t2, Subscriber.notifyLoop ntf fuel t link = some t2 ∧
      t2.nodes sub = t.nodes sub := by
  intro ds
  induction ds with
  | nil =>
    intro dl fuel t link hch hfa hsub hlinks hfuel
    rcases link with _ | l
    · rcases fuel with _ | fuel <;> exact ⟨t, rfl, rfl⟩
    · exact absurd hch (by simp [DepChain])
  | cons l0 rest ih =>
    intro dl fuel t link hch hfa hsub hlinks hfuel
    rcases link with _ | l
    · exact absurd hch (by simp [DepChain])
    obtain ⟨hl0, hrest⟩ := hch
    rcases hfa with _ | @⟨_, d0, _, dlrest, hd0, hfa2⟩
    have hsubne : sub ≠ d0 := fun hc => hsub (hc ▸ List.mem_cons_self _ _)
    have hsubrest : sub ∉ dlrest :=
      fun hc => hsub (List.mem_cons_of_mem _ hc)
    rcases fuel with _ | fuel
    · exact absurd hfuel (by simp)
    have hfuel2 : rest.length ≤ fuel := by
      simp only [List.length_cons] at hfuel
      omega
    unfold Subscriber.notifyLoop
    have hld : (t.links l).dep = some d0 := by
      rw [hlinks, hl0]
      exact hd0
    rw [hld]
    simp only []
    by_cases hcond : (t.nodes d0).hasNotify = true ∧
        (t.nodes d0).versionOrDirtyLevel ≠ DirtyLevels.NotDirty
    · rw [if_pos hcond]
      have hl2 : ((ntf d0 t).links l).nextDep = (s.links l).nextDep := by
        rw [hntfL, hlinks]
      rw [hl2]
      have hrest2 : DepChain s ((s.links l).nextDep) rest := hl0 ▸ hrest
      obtain ⟨t2, hrec, hpres⟩ := ih dlrest fuel (ntf d0 t)
        ((s.links l).nextDep) hrest2 hfa2 hsubrest
        (by rw [hntfL, hlinks]) hfuel2
      refine ⟨t2, hrec, ?_⟩
      rw [hpres]
      exact hntfN d0 t sub hsubne
    · rw [if_neg hcond]
      have hl2 : (t.links l).nextDep = (s.links l).nextDep := by rw [hlinks]
      rw [hl2]
      have hrest2 : DepChain s ((s.links l).nextDep) rest := hl0 ▸ hrest
      exact ih dlrest fuel t ((s.links l).nextDep) hrest2 hfa2 hsubrest
        hlinks hfuel2

/-- The section after the labelled loop of resolveMaybeDirty: whatever the
hasDirtyInnerEffects flag says, it returns successfully with the update log
unchanged and the Subscriber still NotDirty. -/
theorem resolveFinish_glitch (ntf : Nat → System → System)
    (hntfL : ∀ d t, (ntf d t).links = t.links)
    (hntfN : ∀ d t n, n ≠ d → (ntf d t).nodes n = t.nodes n)
    (s : System) (sub : Nat) (ds0 dl0 : List Nat)
    (hch0 : DepChain s ((s.nodes sub).deps) ds0)
    (hfa0 : List.Forall₂ (fun l d => (s.links l).dep = some d) ds0 dl0)
    (hsub0 : sub ∉ dl0) :
    ∀ (fuelF : Nat) (t1 : System) (ulog : List Nat) (hid : Bool),
    ds0.length ≤ fuelF →
    t1.links = s.links →
    (t1.nodes sub).versionOrDirtyLevel = DirtyLevels.NotDirty →
    (t1.nodes sub).deps = (s.nodes sub).deps →
    ∃ t2, Subscriber.resolveFinish ntf fuelF t1 sub ulog hid
        = some (t2, ulog) ∧
      (t2.nodes sub).versionOrDirtyLevel = DirtyLevels.NotDirty := by
  intro fuelF t1 ulog hid hf hl1 hlv1 hd1
  unfold Subscriber.resolveFinish
  by_cases hc : hid = true ∧
      (t1.nodes sub).versionOrDirtyLevel = DirtyLevels.NotDirty
  · rw [if_pos hc]
    obtain ⟨t2, hnl, hpres⟩ := notifyLoop_pres ntf hntfL hntfN s sub ds0 dl0
      fuelF t1 ((t1.nodes sub).deps)
      (by rw [hd1]; exact hch0) hfa0 hsub0 hl1 hf
    rw [hnl]
    refine ⟨t2, rfl, ?_⟩
    rw [hpres]
    exact hlv1
  · rw [if_neg hc]
    exact ⟨t1, rfl, hlv1⟩

set_option maxHeartbeats 1000000 in
/-- The labelled loop of resolveMaybeDirty under the glitch-suppression
scenario: the tracked Subscriber is MaybeDirty, no dependency is itself
MaybeDirty (so the walk never descends), and the update callback invoked on
Dirty dependencies rewrites only the recomputed node, in particular never
re-dirtying the Subscriber (the embedded form of "the recomputation does not
change the dependency's depVersion").  The walk then terminates, only ever
logs updates of dependencies, and settles the Subscriber at NotDirty. -/
theorem resolveLoop_glitch_free (upd ntf : Nat → System → System)
    (hupdL : ∀ d t, (upd d t).links = t.links)
    (hupdN : ∀ d t n, n ≠ d → (upd d t).nodes n = t.nodes n)
    (hntfL : ∀ d t, (ntf d t).links = t.links)
    (hntfN : ∀ d t n, n ≠ d → (ntf d t).nodes n = t.nodes n)
    (s : System) (sub : Nat)
    (hsubLvl : (s.nodes sub).versionOrDirtyLevel = DirtyLevels.MaybeDirty)
    (hclean : ∀ sh, (s.nodes sub).subs = some sh →
      (s.links sh).prevSubOrUpdate = none)
    (ds0 dl0 : List Nat)
    (hch0 : DepChain s ((s.nodes sub).deps) ds0)
    (hfa0 : List.Forall₂ (fun l d => (s.links l).dep = some d) ds0 dl0)
    (hsub0 : sub ∉ dl0) :
    ∀ (ds dl : List Nat) (fuel : Nat) (t : System) (link : Option Nat)
      (ulog : List Nat) (hid : Bool),
    DepChain s link ds →
    List.Forall₂ (fun l d => (s.links l).dep = some d) ds dl →
    dl.Nodup →
    sub ∉ dl →
    (∀ d ∈ dl, (s.nodes d).isSub = true → (s.nodes d).hasUpdate = true →
      (s.nodes d).versionOrDirtyLevel ≠ DirtyLevels.MaybeDirty) →
    t.links = s.links →
    t.nodes sub = s.nodes sub →
    (∀ d ∈ dl, t.nodes d = s.nodes d) →
    ds.length + 2 + ds0.length ≤ fuel →
    ∃ t2 ulog2, Subscriber.resolveLoop upd ntf fuel t sub
        (Subscriber.RPhase.scan link) ulog hid = some (t2, ulog ++ ulog2) ∧
      (t2.nodes sub).versionOrDirtyLevel = DirtyLevels.NotDirty ∧
      (∀ x ∈ ulog2, x ∈ dl) := by
  intro ds
  induction ds with
  | nil =>
    intro dl fuel t link ulog hid hch hfa hnd hsub hflags hlinks htsub hpres
      hfuel
    rcases link with _ | l
    swap
    · exact absurd hch (by simp [DepChain])
    rcases fuel with _ | fuel
    · exact absurd hfuel (by simp)
    unfold Subscriber.resolveLoop
    simp only []
    rcases fuel with _ | fuel
    · exact absurd hfuel (by simp only [List.length_nil] at hfuel ⊢; omega)
    unfold Subscriber.resolveLoop
    simp only []
    have hdl : (t.nodes sub).versionOrDirtyLevel = DirtyLevels.MaybeDirty := by
      rw [htsub]
      exact hsubLvl
    rw [hdl, if_pos rfl]
    have hfin := resolveFinish_glitch ntf hntfL hntfN s sub ds0 dl0 hch0 hfa0
      hsub0 fuel
      (t.setNode sub
        { t.nodes sub with versionOrDirtyLevel := DirtyLevels.NotDirty })
      ulog hid
      (by simp only [List.length_nil] at hfuel; omega)
      (by rw [links_setNode, hlinks])
      (by
        have hx : ((t.setNode sub { t.nodes sub with
            versionOrDirtyLevel := DirtyLevels.NotDirty }).nodes sub)
            = { t.nodes sub with
                versionOrDirtyLevel := DirtyLevels.NotDirty } := by simp
        rw [hx])
      (by
        have hx : ((t.setNode sub { t.nodes sub with
            versionOrDirtyLevel := DirtyLevels.NotDirty }).nodes sub)
            = { t.nodes sub with
                versionOrDirtyLevel := DirtyLevels.NotDirty } := by simp
        rw [hx]
        show (t.nodes sub).deps = _
        rw [htsub])
    obtain ⟨t2, hfeq, hflv⟩ := hfin
    have hsubs1 : ((t.setNode sub { t.nodes sub with
        versionOrDirtyLevel := DirtyLevels.NotDirty }).nodes sub).subs
        = (s.nodes sub).subs := by
      have hx : ((t.setNode sub { t.nodes sub with
          versionOrDirtyLevel := DirtyLevels.NotDirty }).nodes sub)
          = { t.nodes sub with
              versionOrDirtyLevel := DirtyLevels.NotDirty } := by simp
      rw [hx]
      show (t.nodes sub).subs = _
      rw [htsub]
    rcases hsubs : (s.nodes sub).subs with _ | sh
    · rw [hsubs] at hsubs1
      rw [hsubs1]
      simp only []
      rw [hfeq]
      exact ⟨t2, [], by simp, hflv, by simp⟩
    · rw [hsubs] at hsubs1
      rw [hsubs1]
      simp only []
      have hpsu : ((t.setNode sub { t.nodes sub with
          versionOrDirtyLevel := DirtyLevels.NotDirty }).links
            sh).prevSubOrUpdate = none := by
        rw [links_setNode, hlinks]
        exact hclean sh hsubs
      rw [hpsu]
      simp only []
      rw [hfeq]
      exact ⟨t2, [], by simp, hflv, by simp⟩
  | cons l0 rest ih =>
    intro dl fuel t link ulog hid hch hfa hnd hsub hflags hlinks htsub hpres
      hfuel
    rcases link with _ | l
    · exact absurd hch (by simp [DepChain])
    obtain ⟨hl0, hrest⟩ := hch
    have hrest2 : DepChain s ((s.links l).nextDep) rest := hl0 ▸ hrest
    rcases hfa with _ | @⟨_, d0, _, dlrest, hd0, hfa2⟩
    have hsubne : sub ≠ d0 := fun hc => hsub (hc ▸ List.mem_cons_self _ _)
    have hsubrest : sub ∉ dlrest :=
      fun hc => hsub (List.mem_cons_of_mem _ hc)
    have hndrest : dlrest.Nodup := (List.nodup_cons.mp hnd).2
    have hd0nin : d0 ∉ dlrest := (List.nodup_cons.mp hnd).1
    have hflagsrest : ∀ d ∈ dlrest, (s.nodes d).isSub = true →
        (s.nodes d).hasUpdate = true →
        (s.nodes d).versionOrDirtyLevel ≠ DirtyLevels.MaybeDirty :=
      fun d hd => hflags d (List.mem_cons_of_mem _ hd)
    have hpresrest : ∀ d ∈ dlrest, t.nodes d = s.nodes d :=
      fun d hd => hpres d (List.mem_cons_of_mem _ hd)
    rcases fuel with _ | fuel
    · exact absurd hfuel (by simp)
    have hfuel2 : rest.length + 2 + ds0.length ≤ fuel := by
      simp only [List.length_cons] at hfuel
      omega
    unfold Subscriber.resolveLoop
    simp only []
    have htdep : (t.links l).dep = some d0 := by
      rw [hlinks, hl0]
      exact hd0
    rw [htdep]
    simp only []
    have htd0 : t.nodes d0 = s.nodes d0 := hpres d0 (List.mem_cons_self _ _)
    rw [htd0]
    have hnds : (t.links l).nextDep = (s.links l).nextDep := by rw [hlinks]
    by_cases hIsSub : (s.nodes d0).isSub = true
    · rw [if_pos hIsSub]
      by_cases hUpd : (s.nodes d0).hasUpdate = true
      · rw [if_pos hUpd]
        have hnotMD : ¬ ((s.nodes d0).versionOrDirtyLevel
            = DirtyLevels.MaybeDirty) :=
          hflags d0 (List.mem_cons_self _ _) hIsSub hUpd
        rw [if_neg hnotMD]
        by_cases hDirty : (s.nodes d0).versionOrDirtyLevel = DirtyLevels.Dirty
        · rw [if_pos hDirty]
          have hs1sub : ((upd d0 t).nodes sub).versionOrDirtyLevel
              = DirtyLevels.MaybeDirty := by
            rw [hupdN d0 t sub hsubne, htsub]
            exact hsubLvl
          have hnotD : ¬ (((upd d0 t).nodes sub).versionOrDirtyLevel
              = DirtyLevels.Dirty) := by
            rw [hs1sub]
            decide
          rw [if_neg hnotD]
          have hl2 : ((upd d0 t).links l).nextDep = (s.links l).nextDep := by
            rw [hupdL, hlinks]
          rw [hl2]
          obtain ⟨t2, ulog2, hrec, hl2v, hm2⟩ := ih dlrest fuel (upd d0 t)
            ((s.links l).nextDep) (ulog ++ [d0]) hid hrest2 hfa2 hndrest
            hsubrest hflagsrest
            (by rw [hupdL, hlinks])
            (by rw [hupdN d0 t sub hsubne, htsub])
            (fun d hd => by
              have hne : d ≠ d0 := fun hc => hd0nin (hc ▸ hd)
              rw [hupdN d0 t d hne]
              exact hpresrest d hd)
            hfuel2
          refine ⟨t2, [d0] ++ ulog2, ?_, hl2v, ?_⟩
          · rw [hrec]
            simp
          · intro x hx
            rcases List.mem_cons.mp hx with hxe | hx2
            · rw [hxe]
              exact List.mem_cons_self _ _
            · exact List.mem_cons_of_mem _ (hm2 x hx2)
        · rw [if_neg hDirty]
          rw [hnds]
          obtain ⟨t2, ulog2, hrec, hl2v, hm2⟩ := ih dlrest fuel t
            ((s.links l).nextDep) ulog hid hrest2 hfa2 hndrest hsubrest
            hflagsrest hlinks htsub hpresrest hfuel2
          exact ⟨t2, ulog2, hrec, hl2v,
            fun x hx => List.mem_cons_of_mem _ (hm2 x hx)⟩
      · rw [if_neg hUpd]
        by_cases hNot : (s.nodes d0).hasNotify = true
        · rw [if_pos hNot]
          rw [hnds]
          obtain ⟨t2, ulog2, hrec, hl2v, hm2⟩ := ih dlrest fuel t
            ((s.links l).nextDep) ulog
            (hid || ((s.nodes d0).versionOrDirtyLevel
                == DirtyLevels.MaybeDirty) ||
              ((s.nodes d0).versionOrDirtyLevel == DirtyLevels.Dirty))
            hrest2 hfa2 hndrest hsubrest hflagsrest hlinks htsub hpresrest
            hfuel2
          exact ⟨t2, ulog2, hrec, hl2v,
            fun x hx => List.mem_cons_of_mem _ (hm2 x hx)⟩
        · rw [if_neg hNot]
          rw [hnds]
          obtain ⟨t2, ulog2, hrec, hl2v, hm2⟩ := ih dlrest fuel t
            ((s.links l).nextDep) ulog hid hrest2 hfa2 hndrest hsubrest
            hflagsrest hlinks htsub hpresrest hfuel2
          exact ⟨t2, ulog2, hrec, hl2v,
            fun x hx => List.mem_cons_of_mem _ (hm2 x hx)⟩
    · rw [if_neg hIsSub]
      rw [hnds]
      obtain ⟨t2, ulog2, hrec, hl2v, hm2⟩ := ih dlrest fuel t
        ((s.links l).nextDep) ulog hid hrest2 hfa2 hndrest hsubrest
        hflagsrest hlinks htsub hpresrest hfuel2
      exact ⟨t2, ulog2, hrec, hl2v,
        fun x hx => List.mem_cons_of_mem _ (hm2 x hx)⟩

/-- C1: glitch suppression of resolveMaybeDirty.  For a MaybeDirty Subscriber
whose dependency list is spelled out by the links ds with distinct
dependencies dl, none of which is itself MaybeDirty, and whose update callback
rewrites only the recomputed dependency itself - the embedded form of "each
Dirty derived dependency's recomputation leaves its depVersion unchanged", so
nothing re-dirties the Subscriber - resolveMaybeDirty succeeds, leaves the
Subscriber at NotDirty, and never invokes the Subscriber's own update: the
update log holds only dependencies. -/
theorem resolveMaybeDirty_glitch_suppression (upd ntf : Nat → System → System)
    (hupdL : ∀ d t, (upd d t).links = t.links)
    (hupdN : ∀ d t n, n ≠ d → (upd d t).nodes n = t.nodes n)
    (hntfL : ∀ d t, (ntf d t).links = t.links)
    (hntfN : ∀ d t n, n ≠ d → (ntf d t).nodes n = t.nodes n)
    (fuel : Nat) (s : System) (sub : Nat) (ds dl : List Nat)
    (hsubLvl : (s.nodes sub).versionOrDirtyLevel = DirtyLevels.MaybeDirty)
    (hclean : ∀ sh, (s.nodes sub).subs = some sh →
      (s.links sh).prevSubOrUpdate = none)
    (hch : DepChain s ((s.nodes sub).deps) ds)
    (hfa : List.Forall₂ (fun l d => (s.links l).dep = some d) ds dl)
    (hnd : dl.Nodup)
    (hsubnin : sub ∉ dl)
    (hflags : ∀ d ∈ dl, (s.nodes d).isSub = true →
      (s.nodes d).hasUpdate = true →
      (s.nodes d).versionOrDirtyLevel ≠ DirtyLevels.MaybeDirty)
    (hfuel : ds.length + 2 + ds.length ≤ fuel) :
    ∃ s2 ulog, Subscriber.resolveMaybeDirty upd ntf fuel s sub
        = some (s2, ulog) ∧
      (s2.nodes sub).versionOrDirtyLevel = DirtyLevels.NotDirty ∧
      sub ∉ ulog := by
  unfold Subscriber.resolveMaybeDirty
  obtain ⟨t2, ulog2, hrun, hlvl2, hmem⟩ := resolveLoop_glitch_free upd ntf
    hupdL hupdN hntfL hntfN s sub hsubLvl hclean ds dl hch hfa hsubnin
    ds dl fuel s ((s.nodes sub).deps) [] false hch hfa hnd hsubnin hflags
    rfl rfl (fun d _ => rfl) hfuel
  refine ⟨t2, [] ++ ulog2, hrun, hlvl2, ?_⟩
  intro hc
  simp only [List.nil_append] at hc
  exact hsubnin (hmem sub hc)

/-- Witness for C1 on the chain after propagating the Source: Derived2(3) is
MaybeDirty, its single dependency Derived1(2) is Dirty, and resolving with an
identity update callback (Derived1's recomputation changes nothing) settles
Derived2 at NotDirty while only Derived1's update is logged. -/
theorem resolveMaybeDirty_glitch_suppression_witness :
    ∃ s2 ulog, Subscriber.resolveMaybeDirty (fun _ t => t) (fun _ t => t) 10
        exChainRun.1 3 = some (s2, ulog) ∧
      (s2.nodes 3).versionOrDirtyLevel = DirtyLevels.NotDirty ∧
      3 ∉ ulog :=
  resolveMaybeDirty_glitch_suppression (fun _ t => t) (fun _ t => t)
    (fun _ _ => rfl) (fun _ _ _ _ => rfl) (fun _ _ => rfl)
    (fun _ _ _ _ => rfl)
    10 exChainRun.1 3 [11] [2]
    (by decide)
    (by
      intro sh h
      have h2 : (exChainRun.1.nodes 3).subs = some 12 := by decide
      rw [h2] at h
      have h3 : sh = 12 := (Option.some.inj h).symm
      rw [h3]
      decide)
    ⟨by decide, trivial⟩
    (List.Forall₂.cons (by decide) List.Forall₂.nil)
    (List.nodup_singleton 2)
    (by decide)
    (by
      intro d hd
      have hde : d = 2 := by simpa using hd
      rw [hde]
      intro _ _
      decide)
    (by decide)

/-- Pointwise description of exChain's node heap. -/
theorem exChain_nodes_def (n : Nat) : exChain.nodes n =
    (if n = 1 then { isDep := true, subs := some 10, subsTail := some 10 }
     else if n = 2 then
       { isDep := true, isSub := true, hasUpdate := true,
         subs := some 11, subsTail := some 11,
         deps := some 10, depsTail := some 10 }
     else if n = 3 then
       { isDep := true, isSub := true, hasUpdate := true,
         subs := some 12, subsTail := some 12,
         deps := some 11, depsTail := some 11 }
     else if n = 4 then
       { isSub := true, hasNotify := true,
         deps := some 12, depsTail := some 12 }
     else {} : Node) := rfl

/-- Pointwise description of exChain's link heap. -/
theorem exChain_links_def (l : Nat) : exChain.links l =
    (if l = 10 then { dep := some 1, sub := some 2, depVersion := 0 }
     else if l = 11 then { dep := some 2, sub := some 3, depVersion := 0 }
     else if l = 12 then { dep := some 3, sub := some 4, depVersion := 0 }
     else {} : Link) := rfl

theorem exChain_stashClean : StashClean exChain := by
  intro n dd hdd
  rw [exChain_links_def]
  split
  · rfl
  split
  · rfl
  split
  · rfl
  rfl

theorem exChain_subsWF : SubsWF exChain := by
  intro d2 j hj
  by_cases h1 : d2 = 1
  · subst h1
    rw [show (exChain.nodes 1).subs = some 10 from rfl] at hj
    cases hj with
    | head => decide
    | tail l j h2 =>
      rw [show (exChain.links 10).nextSub = none from rfl] at h2
      cases h2
  · by_cases h2 : d2 = 2
    · subst h2
      rw [show (exChain.nodes 2).subs = some 11 from rfl] at hj
      cases hj with
      | head => decide
      | tail l j h3 =>
        rw [show (exChain.links 11).nextSub = none from rfl] at h3
        cases h3
    · by_cases h3 : d2 = 3
      · subst h3
        rw [show (exChain.nodes 3).subs = some 12 from rfl] at hj
        cases hj with
        | head => decide
        | tail l j h4 =>
          rw [show (exChain.links 12).nextSub = none from rfl] at h4
          cases h4
      · have hs : (exChain.nodes d2).subs = none := by
          rw [exChain_nodes_def]
          rw [if_neg h1, if_neg h2, if_neg h3]
          split <;> rfl
        rw [hs] at hj
        cases hj

theorem exChain_deps_shape : ∀ n dd, (exChain.nodes n).deps = some dd →
    (n = 2 ∧ dd = 10) ∨ (n = 3 ∧ dd = 11) ∨ (n = 4 ∧ dd = 12) := by
  intro n dd h
  rw [exChain_nodes_def] at h
  by_cases h1 : n = 1
  · rw [if_pos h1] at h
    cases h
  rw [if_neg h1] at h
  by_cases h2 : n = 2
  · rw [if_pos h2] at h
    exact Or.inl ⟨h2, (Option.some.inj h).symm⟩
  rw [if_neg h2] at h
  by_cases h3 : n = 3
  · rw [if_pos h3] at h
    exact Or.inr (Or.inl ⟨h3, (Option.some.inj h).symm⟩)
  rw [if_neg h3] at h
  by_cases h4 : n = 4
  · rw [if_pos h4] at h
    exact Or.inr (Or.inr ⟨h4, (Option.some.inj h).symm⟩)
  rw [if_neg h4] at h
  cases h

theorem exChain_depsHeadInj : DepsHeadInj exChain := by
  intro n m dd hn hm
  rcases exChain_deps_shape n dd hn with ⟨e1, e2⟩ | ⟨e1, e2⟩ | ⟨e1, e2⟩ <;>
    rcases exChain_deps_shape m dd hm with ⟨f1, f2⟩ | ⟨f1, f2⟩ | ⟨f1, f2⟩ <;>
    omega

theorem exChain_queueInv : QueueInv exChain [] := by
  refine ⟨trivial, rfl, List.nodup_nil, ?_⟩
  intro n hn
  refine ⟨by simp, ?_⟩
  rw [exChain_nodes_def]
  split
  · rfl
  split
  · rfl
  split
  · rfl
  split
  · rfl
  rfl

set_option maxHeartbeats 1000000 in
/-- Summary of one whole Dependency.propagate pass on a well-formed graph:
depth-graded level guarantees for every visit, NotDirty effects recorded in
the enqueue log, the queue extended at the tail by exactly that log, and the
structural invariants restored (used by the batching analysis as well). -/
theorem propagate_master (fuel : Nat) (s : System)
    (d : Nat) (Q : List Nat) (s' : System) (vlog : List (Nat × Int × Int))
    (elog : List Nat)
    (hsc : StashClean s) (hswf : SubsWF s) (hinj : DepsHeadInj s)
    (hq : QueueInv s Q)
    (h : Dependency.propagate fuel s d = some (s', vlog, elog)) :
    (∀ x ∈ vlog,
      (x.2.1 = 0 → DirtyLevels.Dirty ≤ (s'.nodes x.1).versionOrDirtyLevel) ∧
      (0 < x.2.1 →
        DirtyLevels.MaybeDirty ≤ (s'.nodes x.1).versionOrDirtyLevel)) ∧
    (∀ x ∈ vlog, x.2.2 = DirtyLevels.NotDirty →
      (s.nodes x.1).hasNotify = true → x.1 ∈ elog) ∧
    QueueInv s' (Q ++ elog) ∧
    StashClean s' ∧ SubsWF s' ∧ DepsHeadInj s' ∧
    s'.batchDepth = s.batchDepth := by
  unfold Dependency.propagate at h
  simp only [] at h
  set s1 := s.setNode d
    { s.nodes d with depVersion := (s.nodes d).depVersion + 1 } with hs1
  have hnF : ∀ n, (s1.nodes n).deps = (s.nodes n).deps ∧
      (s1.nodes n).subs = (s.nodes n).subs ∧
      (s1.nodes n).versionOrDirtyLevel = (s.nodes n).versionOrDirtyLevel ∧
      (s1.nodes n).hasNotify = (s.nodes n).hasNotify ∧
      (s1.nodes n).nextNotify = (s.nodes n).nextNotify := by
    intro n
    rw [hs1]
    simp only [nodes_setNode]
    split
    · next he =>
      rw [he]
      exact ⟨rfl, rfl, rfl, rfl, rfl⟩
    · exact ⟨rfl, rfl, rfl, rfl, rfl⟩
  have hlF : s1.links = s.links := by
    rw [hs1]
    exact links_setNode s d _
  have hchain : ∀ link j, InSubChain s1 link j → InSubChain s link j := by
    intro link j hj
    induction hj with
    | head l => exact InSubChain.head l
    | tail l j h2 ihc =>
      refine InSubChain.tail l j ?_
      rw [← hlF]
      exact ihc
  have hswf1 : SubsWF s1 := by
    intro d2 j hj
    rw [hlF]
    refine hswf d2 j ?_
    rw [(hnF d2).2.1] at hj
    exact hchain _ j hj
  have hinj1 : DepsHeadInj s1 := by
    intro n m dd h1 h2
    rw [(hnF n).1] at h1
    rw [(hnF m).1] at h2
    exact hinj n m dd h1 h2
  have hq1 : QueueInv s1 Q := by
    obtain ⟨hch, htl, hnd, hfr⟩ := hq
    refine ⟨?_, ?_, hnd, ?_⟩
    · have hqe : s1.queuedEffects = s.queuedEffects := by rw [hs1]; rfl
      rw [hqe]
      refine isEffectChain_congr s s1 ?_ Q s.queuedEffects hch
      intro n
      exact (hnF n).2.2.2.2
    · have hqet : s1.queuedEffectsTail = s.queuedEffectsTail := by
        rw [hs1]; rfl
      rw [hqet]
      exact htl
    · intro n hl
      rw [(hnF n).2.2.1] at hl
      obtain ⟨ha, hb⟩ := hfr n hl
      refine ⟨ha, ?_⟩
      rw [(hnF n).2.2.2.2]
      exact hb
  have hoth1 : othersClean s1 [] := by
    intro n _ dd hdd
    rw [(hnF n).1] at hdd
    rw [hlF]
    exact hsc n dd hdd
  obtain ⟨Δv, Δe, hv, he, hq2, hsc2, hF2, hA2, hB2, hC2⟩ :=
    propagateLoop_master fuel s1 d [] d ((s1.nodes d).subs)
      DirtyLevels.Dirty 0 [] [] Q s' vlog elog h
      ⟨rfl, hoth1, List.nodup_nil, by simp, fun _ => rfl, by decide,
        le_refl _, hswf1 d, hswf1, hinj1, hq1⟩
  have hΔv : Δv = vlog := by simpa using hv.symm
  have hΔe : Δe = elog := by simpa using he.symm
  have hg : GraphEq s1 s' := propagateLoop_graphEq fuel s1 d _ _ _ _ _ s'
    vlog elog h
  refine ⟨?_, ?_, ?_, hsc2, subsWF_of_graphEq hg hswf1,
    depsHeadInj_of_graphEq hg hinj1, ?_⟩
  · intro x hx
    refine hA2 x ?_
    rw [hΔv]
    exact hx
  · intro x hx h0 hn
    have hx2 : x ∈ Δv := by
      rw [hΔv]
      exact hx
    have hn1 : (s1.nodes x.1).hasNotify = true := by
      rw [(hnF x.1).2.2.2.1]
      exact hn
    have hres := hB2 x hx2 h0 hn1
    rw [hΔe] at hres
    exact hres
  · rw [← hΔe]
    exact hq2
  · rw [hg.2.2.1]
    rw [hs1]
    rfl

/-- C2: on every graph satisfying the structural invariants (clean scratch
pointers, well-formed subscriber lists, distinct dependency-list heads, and an
effect queue spelling out Q), a successful Dependency.propagate pass raises
every subscriber it visits at depth 0 to at least Dirty and every subscriber
it visits at depth greater than 0 to at least MaybeDirty in the final state,
sends every visited effect whose prior level was NotDirty to the enqueue log,
and leaves the effect queue holding exactly Q with the enqueue log appended at
the tail. -/
theorem propagate_marks_by_depth_and_enqueues_at_tail (fuel : Nat) (s : System)
    (d : Nat) (Q : List Nat) (s' : System) (vlog : List (Nat × Int × Int))
    (elog : List Nat)
    (hsc : StashClean s) (hswf : SubsWF s) (hinj : DepsHeadInj s)
    (hq : QueueInv s Q)
    (h : Dependency.propagate fuel s d = some (s', vlog, elog)) :
    (∀ x ∈ vlog,
      (x.2.1 = 0 → DirtyLevels.Dirty ≤ (s'.nodes x.1).versionOrDirtyLevel) ∧
      (0 < x.2.1 →
        DirtyLevels.MaybeDirty ≤ (s'.nodes x.1).versionOrDirtyLevel)) ∧
    (∀ x ∈ vlog, x.2.2 = DirtyLevels.NotDirty →
      (s.nodes x.1).hasNotify = true → x.1 ∈ elog) ∧
    QueueInv s' (Q ++ elog) := by
  obtain ⟨hA, hB, hQ, -, -, -, -⟩ :=
    propagate_master fuel s d Q s' vlog elog hsc hswf hinj hq h
  exact ⟨hA, hB, hQ⟩

/-- Chain agreement restricted to the members of the represented queue: enough
to carry isEffectChain across a state change that rewires only nodes outside
the queue. -/
theorem isEffectChain_congr_on (s t : System) :
    ∀ (R : List Nat) (head : Option Nat),
    isEffectChain s head R →
    (∀ n ∈ R, (t.nodes n).nextNotify = (s.nodes n).nextNotify) →
    isEffectChain t head R := by
  intro R
  induction R with
  | nil =>
    intro head h _
    cases head <;> simpa [isEffectChain] using h
  | cons q rest ihq =>
    intro head h hnn
    cases head with
    | none => simp [isEffectChain] at h
    | some hd =>
      obtain ⟨hhd, hrest⟩ := h
      refine ⟨hhd, ?_⟩
      have hmemhd : hd ∈ q :: rest := by
        rw [hhd]
        exact List.mem_cons_self _ _
      rw [hnn hd hmemhd]
      exact ihq _ hrest (fun n hm => hnn n (List.mem_cons_of_mem _ hm))

theorem inSubChain_of_links_eq {s t : System} (hl : t.links = s.links) :
    ∀ link j, InSubChain t link j → InSubChain s link j := by
  intro link j hj
  induction hj with
  | head l => exact InSubChain.head l
  | tail l j h2 ihc =>
    refine InSubChain.tail l j ?_
    rw [← hl]
    exact ihc

theorem subsWF_of_eq_heaps {s t : System} (hn : t.nodes = s.nodes)
    (hl : t.links = s.links) (h : SubsWF s) : SubsWF t := by
  intro d2 j hj
  rw [hl]
  refine h d2 j ?_
  rw [hn] at hj
  exact inSubChain_of_links_eq hl _ j hj

theorem stashClean_of_eq_heaps {s t : System} (hn : t.nodes = s.nodes)
    (hl : t.links = s.links) (h : StashClean s) : StashClean t := by
  intro n dd hdd
  rw [hn] at hdd
  rw [hl]
  exact h n dd hdd

theorem depsHeadInj_of_eq_heaps {s t : System} (hn : t.nodes = s.nodes)
    (h : DepsHeadInj s) : DepsHeadInj t := by
  intro n m dd h1 h2
  rw [hn] at h1 h2
  exact h n m dd h1 h2

theorem queueInv_of_eq {s t : System} (Q : List Nat) (hn : t.nodes = s.nodes)
    (hqe : t.queuedEffects = s.queuedEffects)
    (hqt : t.queuedEffectsTail = s.queuedEffectsTail)
    (h : QueueInv s Q) : QueueInv t Q := by
  obtain ⟨hch, htl, hnd, hfr⟩ := h
  refine ⟨?_, ?_, hnd, ?_⟩
  · rw [hqe]
    refine isEffectChain_congr s t ?_ Q s.queuedEffects hch
    intro n
    rw [hn]
  · rw [hqt]
    exact htl
  · intro n hl
    rw [hn] at hl ⊢
    exact hfr n hl

/-- Draining the effect queue: with the batch depth at zero and the queue
spelling out Q without duplicates, endBatchLoop dequeues Q in order, invoking
the notify callback once per element, provided the callback leaves the queue
pointers, the batch depth and every nextNotify pointer alone. -/
theorem endBatchLoop_drain (ntf : Nat → System → System)
    (hntf : ∀ e t, (ntf e t).queuedEffects = t.queuedEffects ∧
      (ntf e t).queuedEffectsTail = t.queuedEffectsTail ∧
      (ntf e t).batchDepth = t.batchDepth ∧
      ∀ n, ((ntf e t).nodes n).nextNotify = (t.nodes n).nextNotify) :
    ∀ (Q : List Nat) (fuel : Nat) (s : System) (log : List Nat),
    isEffectChain s s.queuedEffects Q →
    s.queuedEffectsTail = Q.getLast? →
    Q.Nodup →
    s.batchDepth = 0 →
    Q.length < fuel →
    ∃ s2, System.endBatchLoop ntf fuel s log = some (s2, log ++ Q) := by
  intro Q
  induction Q with
  | nil =>
    intro fuel s log hch htl hnd hbd hfuel
    rcases fuel with _ | fuel
    · exact absurd hfuel (lt_irrefl 0)
    rcases hqe : s.queuedEffects with _ | e
    · refine ⟨s, ?_⟩
      unfold System.endBatchLoop
      rw [if_pos hbd, hqe]
      simp
    · rw [hqe] at hch
      exact absurd hch (by simp [isEffectChain])
  | cons e rest ihq =>
    intro fuel s log hch htl hnd hbd hfuel
    rcases fuel with _ | fuel
    · exact absurd hfuel (by omega)
    rcases hqe : s.queuedEffects with _ | h0
    · rw [hqe] at hch
      exact absurd hch (by simp [isEffectChain])
    rw [hqe] at hch
    obtain ⟨hhe, hrest⟩ := hch
    subst hhe
    unfold System.endBatchLoop
    rw [if_pos hbd, hqe]
    simp only []
    rcases rest with _ | ⟨r, rest2⟩
    · have hnn : (s.nodes h0).nextNotify = none := by
        rcases hx : (s.nodes h0).nextNotify with _ | q
        · rfl
        · rw [hx] at hrest
          exact absurd hrest (by simp [isEffectChain])
      rw [hnn]
      simp only []
      have hch0 : isEffectChain
          (ntf h0 ({ s with queuedEffects := none, queuedEffectsTail := none } : System))
          (ntf h0 ({ s with queuedEffects := none, queuedEffectsTail := none } : System)).queuedEffects
          [] := by
        have hq0 : (ntf h0 ({ s with queuedEffects := none, queuedEffectsTail := none } : System)).queuedEffects = none := by
          rw [(hntf h0 _).1]
        rw [hq0]
        exact trivial
      have htl0 : (ntf h0 ({ s with queuedEffects := none, queuedEffectsTail := none } : System)).queuedEffectsTail
          = ([] : List Nat).getLast? := by
        rw [(hntf h0 _).2.1]
        rfl
      have hbd0 : (ntf h0 ({ s with queuedEffects := none, queuedEffectsTail := none } : System)).batchDepth = 0 := by
        rw [(hntf h0 _).2.2.1]
        exact hbd
      have hflt : ([] : List Nat).length < fuel := by
        simp only [List.length_cons, List.length_nil] at hfuel ⊢
        omega
      obtain ⟨s2, hrec⟩ := ihq fuel
        (ntf h0 ({ s with queuedEffects := none, queuedEffectsTail := none } : System))
        (log ++ [h0]) hch0 htl0 List.nodup_nil hbd0 hflt
      exact ⟨s2, by simpa using hrec⟩
    · have hnn : (s.nodes h0).nextNotify = some r := by
        rcases hx : (s.nodes h0).nextNotify with _ | q
        · rw [hx] at hrest
          exact absurd hrest (by simp [isEffectChain])
        · rw [hx] at hrest
          obtain ⟨hqr, -⟩ := hrest
          rw [hqr]
      rw [hnn] at hrest ⊢
      simp only []
      have he_nin : h0 ∉ r :: rest2 := (List.nodup_cons.mp hnd).1
      have hch0 : isEffectChain
          (ntf h0 ({ s.setNode h0 { s.nodes h0 with nextNotify := none } with queuedEffects := some r } : System))
          (ntf h0 ({ s.setNode h0 { s.nodes h0 with nextNotify := none } with queuedEffects := some r } : System)).queuedEffects
          (r :: rest2) := by
        have hq0 : (ntf h0 ({ s.setNode h0 { s.nodes h0 with nextNotify := none } with queuedEffects := some r } : System)).queuedEffects = some r := by
          rw [(hntf h0 _).1]
        rw [hq0]
        refine isEffectChain_congr_on s _ (r :: rest2) (some r) hrest ?_
        intro n hnmem
        have hne : n ≠ h0 := fun hc => he_nin (hc ▸ hnmem)
        rw [(hntf h0 _).2.2.2 n]
        show ((s.setNode h0 _).nodes n).nextNotify = _
        simp only [nodes_setNode, if_neg hne]
      have htl0 : (ntf h0 ({ s.setNode h0 { s.nodes h0 with nextNotify := none } with queuedEffects := some r } : System)).queuedEffectsTail
          = (r :: rest2).getLast? := by
        rw [(hntf h0 _).2.1]
        show s.queuedEffectsTail = _
        rw [htl]
        simp
      have hbd0 : (ntf h0 ({ s.setNode h0 { s.nodes h0 with nextNotify := none } with queuedEffects := some r } : System)).batchDepth = 0 := by
        rw [(hntf h0 _).2.2.1]
        exact hbd
      have hflt : (r :: rest2).length < fuel := by
        simp only [List.length_cons] at hfuel ⊢
        omega
      obtain ⟨s2, hrec⟩ := ihq fuel
        (ntf h0 ({ s.setNode h0 { s.nodes h0 with nextNotify := none } with queuedEffects := some r } : System))
        (log ++ [h0]) hch0 htl0 (List.nodup_cons.mp hnd).2 hbd0 hflt
      exact ⟨s2, by simpa using hrec⟩

/-- C6: during a batch (between one startBatch and its matching endBatch),
two propagate passes on two different Dependencies that both reach an effect
which was NotDirty at the start only enqueue it; no notification happens
before endBatch (the propagate interpreter has no access to the notify
callback at all), and the matching endBatch then drains the queue, invoking
notify once per queued effect, so the shared effect is notified exactly
once. -/
theorem batched_propagates_notify_effect_once
    (ntf : Nat → System → System)
    (hntf : ∀ e t, (ntf e t).queuedEffects = t.queuedEffects ∧
      (ntf e t).queuedEffectsTail = t.queuedEffectsTail ∧
      (ntf e t).batchDepth = t.batchDepth ∧
      ∀ n, ((ntf e t).nodes n).nextNotify = (t.nodes n).nextNotify)
    (fuel1 fuel2 fuel3 : Nat) (s : System) (d1 d2 e : Nat)
    (hsc : StashClean s) (hswf : SubsWF s) (hinj : DepsHeadInj s)
    (hq : QueueInv s [])
    (hbd : s.batchDepth = 0)
    (hlvl : (s.nodes e).versionOrDirtyLevel = DirtyLevels.NotDirty)
    (s1 : System) (vlog1 : List (Nat × Int × Int)) (elog1 : List Nat)
    (h1 : Dependency.propagate fuel1 (System.startBatch s) d1
      = some (s1, vlog1, elog1))
    (s2 : System) (vlog2 : List (Nat × Int × Int)) (elog2 : List Nat)
    (h2 : Dependency.propagate fuel2 s1 d2 = some (s2, vlog2, elog2))
    (he1 : e ∈ elog1)
    (he2 : ∃ dp : Int × Int, (e, dp) ∈ vlog2)
    (hfuel3 : (elog1 ++ elog2).length < fuel3) :
    ∃ s3, System.endBatch ntf fuel3 s2 = some (s3, elog1 ++ elog2) ∧
      (elog1 ++ elog2).count e = 1 := by
  have hscb : StashClean (System.startBatch s) :=
    @stashClean_of_eq_heaps s (System.startBatch s) rfl rfl hsc
  have hswfb : SubsWF (System.startBatch s) :=
    @subsWF_of_eq_heaps s (System.startBatch s) rfl rfl hswf
  have hinjb : DepsHeadInj (System.startBatch s) :=
    @depsHeadInj_of_eq_heaps s (System.startBatch s) rfl hinj
  have hqb : QueueInv (System.startBatch s) [] :=
    @queueInv_of_eq s (System.startBatch s) [] rfl rfl rfl hq
  obtain ⟨hA1, hB1, hq1, hsc1, hswf1, hinj1, hbd1⟩ :=
    propagate_master fuel1 (System.startBatch s) d1 [] s1 vlog1 elog1
      hscb hswfb hinjb hqb h1
  have hq1e : QueueInv s1 elog1 := hq1
  obtain ⟨hA2, hB2, hq2, hsc2, hswf2, hinj2, hbd2⟩ :=
    propagate_master fuel2 s1 d2 elog1 s2 vlog2 elog2
      hsc1 hswf1 hinj1 hq1e h2
  have hbds2 : s2.batchDepth = 1 := by
    rw [hbd2, hbd1]
    show s.batchDepth + 1 = 1
    rw [hbd]
    decide
  obtain ⟨hch2, htl2, hnd2, hfr2⟩ := hq2
  have hchd : isEffectChain ({ s2 with batchDepth := s2.batchDepth - 1 } : System)
      ({ s2 with batchDepth := s2.batchDepth - 1 } : System).queuedEffects
      (elog1 ++ elog2) := by
    refine isEffectChain_congr_on s2 _ (elog1 ++ elog2) s2.queuedEffects hch2 ?_
    intro n _
    rfl
  have htld : ({ s2 with batchDepth := s2.batchDepth - 1 } : System).queuedEffectsTail
      = (elog1 ++ elog2).getLast? := htl2
  obtain ⟨s3, hdrain⟩ := endBatchLoop_drain ntf hntf (elog1 ++ elog2) fuel3
    ({ s2 with batchDepth := s2.batchDepth - 1 }) [] hchd htld hnd2
    (by show s2.batchDepth - 1 = 0; rw [hbds2]; decide) hfuel3
  refine ⟨s3, ?_, ?_⟩
  · unfold System.endBatch
    simpa using hdrain
  · exact List.count_eq_one_of_mem hnd2 (List.mem_append_left _ he1)

/-- Pointwise description of exBatch's node heap. -/
theorem exBatch_nodes_def (n : Nat) : exBatch.nodes n =
    (if n = 1 then { isDep := true, subs := some 10, subsTail := some 10 }
     else if n = 2 then { isDep := true, subs := some 11, subsTail := some 11 }
     else if n = 3 then
       { isSub := true, hasNotify := true,
         deps := some 10, depsTail := some 11 }
     else {} : Node) := rfl

/-- Pointwise description of exBatch's link heap. -/
theorem exBatch_links_def (l : Nat) : exBatch.links l =
    (if l = 10 then { dep := some 1, sub := some 3, nextDep := some 11 }
     else if l = 11 then { dep := some 2, sub := some 3 }
     else {} : Link) := rfl

theorem exBatch_stashClean : StashClean exBatch := by
  intro n dd hdd
  rw [exBatch_links_def]
  split
  · rfl
  split
  · rfl
  rfl

theorem exBatch_subsWF : SubsWF exBatch := by
  intro d2 j hj
  by_cases h1 : d2 = 1
  · subst h1
    rw [show (exBatch.nodes 1).subs = some 10 from rfl] at hj
    cases hj with
    | head => decide
    | tail l j h2 =>
      rw [show (exBatch.links 10).nextSub = none from rfl] at h2
      cases h2
  · by_cases h2 : d2 = 2
    · subst h2
      rw [show (exBatch.nodes 2).subs = some 11 from rfl] at hj
      cases hj with
      | head => decide
      | tail l j h3 =>
        rw [show (exBatch.links 11).nextSub = none from rfl] at h3
        cases h3
    · have hs : (exBatch.nodes d2).subs = none := by
        rw [exBatch_nodes_def]
        rw [if_neg h1, if_neg h2]
        split <;> rfl
      rw [hs] at hj
      cases hj

theorem exBatch_depsHeadInj : DepsHeadInj exBatch := by
  intro n m dd hn hm
  have shape : ∀ k, (exBatch.nodes k).deps = some dd → k = 3 := by
    intro k hk
    rw [exBatch_nodes_def] at hk
    by_cases e1 : k = 1
    · rw [if_pos e1] at hk
      cases hk
    rw [if_neg e1] at hk
    by_cases e2 : k = 2
    · rw [if_pos e2] at hk
      cases hk
    rw [if_neg e2] at hk
    by_cases e3 : k = 3
    · exact e3
    rw [if_neg e3] at hk
    cases hk
  rw [shape n hn, shape m hm]

theorem exBatch_queueInv : QueueInv exBatch [] := by
  refine ⟨trivial, rfl, List.nodup_nil, ?_⟩
  intro n hn
  refine ⟨by simp, ?_⟩
  rw [exBatch_nodes_def]
  split
  · rfl
  split
  · rfl
  split
  · rfl
  rfl

/-- The first batched propagate on exBatch: write Source 1 inside the batch. -/
def exBatchRun1 : System × List (Nat × Int × Int) × List Nat :=
  (Dependency.propagate 10 (System.startBatch exBatch) 1).getD (exBatch, [], [])

/-- The second batched propagate on exBatch: write Source 2 in the same
batch. -/
def exBatchRun2 : System × List (Nat × Int × Int) × List Nat :=
  (Dependency.propagate 10 exBatchRun1.1 2).getD (exBatch, [], [])

/-- Witness for C6 on exBatch: both sources feed Effect 3, both writes happen
inside one batch, and the closing endBatch notifies the effect exactly once. -/
theorem batched_propagates_notify_effect_once_witness :
    ∃ s3, System.endBatch (fun _ t => t) 10 exBatchRun2.1
        = some (s3, exBatchRun1.2.2 ++ exBatchRun2.2.2) ∧
      (exBatchRun1.2.2 ++ exBatchRun2.2.2).count 3 = 1 :=
  batched_propagates_notify_effect_once (fun _ t => t)
    (fun e t => ⟨rfl, rfl, rfl, fun n => rfl⟩)
    10 10 10 exBatch 1 2 3
    exBatch_stashClean exBatch_subsWF exBatch_depsHeadInj exBatch_queueInv
    rfl (by decide)
    exBatchRun1.1 exBatchRun1.2.1 exBatchRun1.2.2 (by rfl)
    exBatchRun2.1 exBatchRun2.2.1 exBatchRun2.2.2 (by rfl)
    (by decide)
    ⟨(0, 2), by decide⟩
    (by decide)

/-- Witness for C2 on the concrete chain exChain: propagating Source(1) with
an empty effect queue visits Derived1 at depth 0, Derived2 and the Effect at
depth below, raises them to levels at least matching their depths, and leaves
the queue holding exactly the enqueue log. -/
theorem propagate_marks_by_depth_and_enqueues_at_tail_witness :
    (∀ x ∈ exChainRun.2.1,
      (x.2.1 = 0 →
        DirtyLevels.Dirty ≤ ((exChainRun.1).nodes x.1).versionOrDirtyLevel) ∧
      (0 < x.2.1 →
        DirtyLevels.MaybeDirty
          ≤ ((exChainRun.1).nodes x.1).versionOrDirtyLevel)) ∧
    (∀ x ∈ exChainRun.2.1, x.2.2 = DirtyLevels.NotDirty →
      (exChain.nodes x.1).hasNotify = true → x.1 ∈ exChainRun.2.2) ∧
    QueueInv exChainRun.1 ([] ++ exChainRun.2.2) :=
  propagate_marks_by_depth_and_enqueues_at_tail 20 exChain 1 []
    exChainRun.1 exChainRun.2.1 exChainRun.2.2
    exChain_stashClean exChain_subsWF exChain_depsHeadInj exChain_queueInv
    (by rfl)

end Computeds
